import Mathlib

/-!
# remote-repo-backup: lookback window, progress-line extraction, run history

A shallow embedding of `src/backup.go`.

* Go strings are sequences of runes, `List Char`.
* The three package-level regular expressions are values of a small regular
  expression syntax (`Node`), executed by a backtracking matcher that has the
  leftmost-first semantics of Go's `regexp` package.
* `time.Time` is an instant counted in nanoseconds, `time.Duration` an `Int`
  saturated to the signed 64-bit range, `float64` a rational rounded to the
  nearest binary64 value.
* The current time read by `time.Since` is an explicit argument of `getDuration`.
-/

namespace Backup

/-! ## Regular expressions (Go package `regexp`) -/

/-- One item of a regular expression: the constructs that occur in the three
patterns of `backup.go`. A pattern is a list of items, matched in sequence. -/
inductive Node where
  /-- a single character of a class (a literal, `\s`, `\d`, `.`) -/
  | cls (p : Char → Bool)
  /-- greedy `p*` over a character class -/
  | star (p : Char → Bool)
  /-- greedy `p+` over a character class -/
  | plus (p : Char → Bool)
  /-- opening parenthesis of a capture group -/
  | capOpen
  /-- closing parenthesis of a capture group -/
  | capClose

/-- The class `\s` of Go's regexp syntax: `[\t\n\f\r ]`. -/
def isSpace (c : Char) : Bool :=
  c = '\t' || c = '\n' || c = '\x0c' || c = '\r' || c = ' '

/-- The class `\d` of Go's regexp syntax: `[0-9]`. -/
def isDigit (c : Char) : Bool :=
  '0' ≤ c && c ≤ '9'

/-- The class `.` of Go's regexp syntax without the `s` flag: any character but a newline. -/
def isDot (c : Char) : Bool :=
  c != '\n'

/-- A literal character. -/
def isChar (c : Char) (x : Char) : Bool :=
  x == c

/-- The item is a capture parenthesis. -/
def Node.isCap : Node → Bool
  | Node.capOpen => true
  | Node.capClose => true
  | _ => false

/-- The items of a literal. -/
def litNodes (cs : List Char) : List Node :=
  cs.map (fun c => Node.cls (isChar c))

/-- A literal string as a sequence of single-character items. -/
def lit (s : String) : List Node :=
  s.toList.map (fun c => Node.cls (isChar c))

/-- Greedy repetition: consume as many characters of the class as possible, and
give characters back one by one while the continuation `k` fails. -/
def starLoop {α : Type} (p : Char → Bool) (k : List Char → Option α) : List Char → Option α
  | [] => k []
  | c :: s => if p c then (starLoop p k s).orElse (fun _ => k (c :: s)) else k (c :: s)

/-- Backtracking match of a pattern at the start of the input. The result lists the
input that remained at each capture parenthesis, in pattern order, and last the input
that remained at the end of the match. -/
def run : List Node → List Char → Option (List (List Char))
  | [], s => some [s]
  | Node.capOpen :: ns, s => (run ns s).map (fun r => s :: r)
  | Node.capClose :: ns, s => (run ns s).map (fun r => s :: r)
  | Node.cls p :: ns, s =>
    match s with
    | [] => none
    | c :: t => if p c then run ns t else none
  | Node.star p :: ns, s => starLoop p (run ns) s
  | Node.plus p :: ns, s =>
    match s with
    | [] => none
    | c :: t => if p c then starLoop p (run ns) t else none

/-- The text between two positions of the input, each given by the input that remains. -/
def between (a b : List Char) : List Char :=
  a.take (a.length - b.length)

/-- Leftmost search: the first start position at which the pattern matches. The result
is the input from the start of the match on, with the result of `run` there. -/
def search (re : List Node) : List Char → Option (List Char × List (List Char))
  | [] => (run re []).map (fun r => ([], r))
  | c :: s => ((run re (c :: s)).map (fun r => (c :: s, r))).orElse (fun _ => search re s)

/-- The method `FindStringSubmatch` of a pattern with one capture group: the empty
slice when nothing matches, else the text of the whole match and the text of the group. -/
def FindStringSubmatch (re : List Node) (s : List Char) : List (List Char) :=
  match search re s with
  | some (start, [o, c, e]) => [between start e, between o c]
  | _ => []

/-- Pattern `Transferred:\s+(\d+).*,\s+100%`. -/
def numDownloadedRE : List Node :=
  lit "Transferred:" ++ [Node.plus isSpace, Node.capOpen, Node.plus isDigit, Node.capClose,
    Node.star isDot, Node.cls (isChar ','), Node.plus isSpace] ++ lit "100%"

/-- Pattern `Transferred:\s+(\d+.*)\s\/\s.*ETA`. -/
def sizeDownloadedRE : List Node :=
  lit "Transferred:" ++ [Node.plus isSpace, Node.capOpen, Node.plus isDigit, Node.star isDot,
    Node.capClose, Node.cls isSpace, Node.cls (isChar '/'), Node.cls isSpace,
    Node.star isDot] ++ lit "ETA"

/-- Pattern `Errors:\s+(\d+)`. -/
def numErrorsRE : List Node :=
  lit "Errors:" ++ [Node.plus isSpace, Node.capOpen, Node.plus isDigit, Node.capClose]

/-! ## Decimal parsing (Go `strconv.Atoi`, 64-bit `int`) -/

/-- The value of a decimal digit character. -/
def digitVal (c : Char) : Nat :=
  c.toNat - '0'.toNat

/-- The number a run of decimal digits denotes. -/
def digitsValue (s : List Char) : Nat :=
  s.foldl (fun n c => 10 * n + digitVal c) 0

/-- The largest value of Go's `int` on a 64-bit platform. -/
def maxInt : Int := 2 ^ 63 - 1

/-- The smallest value of Go's `int` on a 64-bit platform. -/
def minInt : Int := -(2 ^ 63)

/-- An unsigned decimal numeral: one digit or more, nothing else. -/
def parseDigits (s : List Char) : Option Nat :=
  if s ≠ [] ∧ s.all isDigit then some (digitsValue s) else none

/-- Go's `strconv.Atoi`: an optional sign and decimal digits; `none` stands for the
error result (a syntax error, or a value out of the range of `int`). -/
def atoi (s : List Char) : Option Int :=
  let v : Option Int :=
    match s with
    | '+' :: t => (parseDigits t).map (fun n => (n : Int))
    | '-' :: t => (parseDigits t).map (fun n => -(n : Int))
    | t => (parseDigits t).map (fun n => (n : Int))
  v.bind (fun n => if minInt ≤ n ∧ n ≤ maxInt then some n else none)

/-! ## The progress extractor -/

/-- The file count of a line: first block of `ProcessStdoutLine`. -/
def extractFiles (line : List Char) : Int :=
  match FindStringSubmatch numDownloadedRE line with
  | _ :: g :: _ =>
    match atoi g with
    | some convertedFiles => convertedFiles
    | none => 0
  | _ => 0

/-- The size text of a line: second block of `ProcessStdoutLine`. -/
def extractSize (line : List Char) : List Char :=
  match FindStringSubmatch sizeDownloadedRE line with
  | _ :: g :: _ => g
  | _ => []

/-- The error count of a line: third block of `ProcessStdoutLine`. -/
def extractErrors (line : List Char) : Int :=
  match FindStringSubmatch numErrorsRE line with
  | _ :: g :: _ =>
    match atoi g with
    | some convertedErrors => convertedErrors
    | none => 0
  | _ => 0

/-- Function `ProcessStdoutLine`: the triple `(files, size, errors)` of a line. -/
def ProcessStdoutLine (line : List Char) : Int × List Char × Int :=
  (extractFiles line, extractSize line, extractErrors line)

/-! ## The orchestration loop and the run history -/

/-- Go's `time.Time`: an instant, counted in nanoseconds. -/
structure Time where
  nanos : Int
  deriving DecidableEq

/-- Struct `Metadata`: the record of one run. -/
structure Metadata where
  StartedAt : Time
  EndedAt : Time
  NumFilesDownloaded : Int
  SizeDownloaded : List Char
  NumErrors : Int
  deriving DecidableEq

/-- The three accumulators `numFilesDownloaded`, `sizeDownloaded`, `numErrors` of `main`. -/
structure Progress where
  numFilesDownloaded : Int
  sizeDownloaded : List Char
  numErrors : Int
  deriving DecidableEq

/-- The accumulators before the first line is read. -/
def Progress.init : Progress :=
  ⟨0, [], 0⟩

/-- The body of the scanner loop of `main`, for one line. -/
def scanStep (acc : Progress) (line : List Char) : Progress :=
  match ProcessStdoutLine line with
  | (files, size, errors) =>
    let acc := if files > 0 then { acc with numFilesDownloaded := files } else acc
    let acc := if size ≠ [] then { acc with sizeDownloaded := size } else acc
    if errors > 0 then { acc with numErrors := errors } else acc

/-- The scanner loop of `main` over the lines the subprocess wrote. -/
def scanLoop (lines : List (List Char)) : Progress :=
  lines.foldl scanStep Progress.init

/-- The record `main` builds once the output stream has ended. -/
def buildMetadata (startedAt endedAt : Time) (lines : List (List Char)) : Metadata :=
  let acc := scanLoop lines
  { StartedAt := startedAt
    EndedAt := endedAt
    NumFilesDownloaded := acc.numFilesDownloaded
    SizeDownloaded := acc.sizeDownloaded
    NumErrors := acc.numErrors }

/-- The slice `updatedMetadata` of `main`: `append([]Metadata{metadata}, existingMetadata...)`. -/
def updatedMetadata (metadata : Metadata) (existingMetadata : List Metadata) : List Metadata :=
  [metadata] ++ existingMetadata

/-! ## Durations and binary64 arithmetic (Go packages `time` and `math`) -/

/-- The constant `time.Hour`, in nanoseconds. -/
def Hour : Int := 3600000000000

/-- The largest `time.Duration`. -/
def maxDuration : Int := 2 ^ 63 - 1

/-- The smallest `time.Duration`. -/
def minDuration : Int := -(2 ^ 63)

/-- Go's `time.Since` for an instant without a monotonic clock reading (as are all
instants decoded from the metadata file), the current time being `now`: the difference,
replaced by the largest or smallest duration when it is out of range. -/
def since (now t : Time) : Int :=
  let d := now.nanos - t.nanos
  if d > maxDuration then maxDuration else if d < minDuration then minDuration else d

/-- Rounding of a non-negative rational to the nearest integer, ties to the even one. -/
def roundTiesEven (q : ℚ) : Int :=
  let f := ⌊q⌋
  if q - f < 1 / 2 then f
  else if 1 / 2 < q - f then f + 1
  else if f % 2 = 0 then f else f + 1

/-- Halving loop behind `log2`, bounded by `fuel` steps. -/
def log2Loop : Nat → Nat → Nat
  | 0, _ => 0
  | fuel + 1, n => if n < 2 then 0 else log2Loop fuel (n / 2) + 1

/-- The position of the highest set bit of a positive natural number. -/
def log2 (n : Nat) : Nat :=
  log2Loop n n

/-- The binade of a non-zero rational: the exponent `e` with `2 ^ e ≤ |q| < 2 ^ (e + 1)`,
found from the bit lengths of numerator and denominator. -/
def binade (q : ℚ) : Int :=
  let c : Int := (log2 q.num.natAbs : Int) - (log2 q.den : Int)
  if (2 : ℚ) ^ c ≤ |q| then c else c - 1

/-- The exponent of the binary64 grid around a non-zero rational: that of its binade,
and the one of the subnormal numbers below the normal range. -/
def float64Exp (q : ℚ) : Int :=
  max (binade q) (-1022)

/-- The binary64 value nearest to a rational (round to nearest, ties to even), for
rationals below the overflow threshold; the sign is kept and the magnitude rounded. -/
def float64 (q : ℚ) : ℚ :=
  if q = 0 then 0
  else
    let u : ℚ := 2 ^ (float64Exp q - 52)
    if q < 0 then -((roundTiesEven (-q / u) : ℚ) * u) else (roundTiesEven (q / u) : ℚ) * u

/-- Method `Duration.Hours`:
`hour := d / Hour; nsec := d % Hour; return float64(hour) + float64(nsec)/(60*60*1e9)`. -/
def Hours (d : Int) : ℚ :=
  let hour := d.tdiv Hour
  let nsec := d.tmod Hour
  float64 (float64 (hour : ℚ) + float64 (float64 (nsec : ℚ) / float64 (60 * 60 * 1000000000)))

/-- Go's `math.Round`: the nearest integer, halves away from zero. -/
def mathRound (x : ℚ) : ℚ :=
  if x < 0 then -(⌊-x + 1 / 2⌋ : ℚ) else (⌊x + 1 / 2⌋ : ℚ)

/-- Conversion of a floating-point value to `int64`: the fraction is discarded. -/
def toInt64 (x : ℚ) : Int :=
  if x < 0 then -⌊-x⌋ else ⌊x⌋

/-- The verb `%d` of `fmt.Sprintf`, followed by the letter `h`. -/
def formatHours (n : Int) : String :=
  toString n ++ "h"

/-- Function `getDuration`; `now` is the time `time.Since` reads. -/
def getDuration (copyAll : Bool) (metadata : List Metadata) (now : Time) : String :=
  match copyAll, metadata with
  | true, _ => "off"
  | false, [] => "off"
  | false, m :: _ => formatHours (toInt64 (mathRound (Hours (since now m.StartedAt))))

/-! ## What the specification says, in its own words, and the shapes of lines -/

/-- The whole number of hours nearest to an exact duration in nanoseconds, halves
rounded away from zero. -/
def specRoundedHours (d : Int) : Int :=
  let q : ℚ := (d : ℚ) / 3600000000000
  if q < 0 then -⌊-q + 1 / 2⌋ else ⌊q + 1 / 2⌋

/-- The remainder of the duration `a` past its whole hours is short of the half hour by
so little that the sum `Duration.Hours` computes rounds up to the half. -/
def inRoundUpBand (a : Int) : Bool :=
  decide (2 * (a % Hour) < Hour) &&
    decide (2 ^ 54 * (Hour - 2 * (a % Hour))
      ≤ Hour * (2 ^ (log2 (a / Hour).toNat + 2) + 1))

/-- The label `Transferred:`. -/
def transferredLabel : List Char := "Transferred:".toList

/-- The label `Errors:`. -/
def errorsLabel : List Char := "Errors:".toList

/-- The marker `100%`. -/
def hundredLabel : List Char := "100%".toList

/-- The marker `ETA`. -/
def etaLabel : List Char := "ETA".toList

/-- The input starts with the label `lbl`. -/
def startsWith (lbl t : List Char) : Bool :=
  lbl.isPrefixOf t

/-- The input starts with whitespace that is followed by a decimal digit. -/
def spaceThenDigit : List Char → Bool
  | [] => false
  | c :: v =>
    isSpace c &&
      match v.dropWhile isSpace with
      | [] => false
      | x :: _ => isDigit x

/-- The input starts with the label `lbl`, whitespace and a decimal digit. -/
def labelledNumber (lbl t : List Char) : Bool :=
  startsWith lbl t && spaceThenDigit (t.drop lbl.length)

/-- Some position inside `pre`, in the text `pre ++ s`, starts a text of the given shape. -/
def occursEarlier (shape : List Char → Bool) : List Char → List Char → Bool
  | [], _ => false
  | c :: pre, s => shape (c :: pre ++ s) || occursEarlier shape pre s

/-- A whitespace character, a slash and a whitespace character occur in sequence. -/
def hasSlashSeparator : List Char → Bool
  | [] => false
  | a :: t =>
    (isSpace a &&
      match t with
      | b :: c :: _ => b == '/' && isSpace c
      | _ => false) || hasSlashSeparator t

/-- The last element that satisfies `p`, or `init` when there is none. -/
def lastWhere {α : Type} (p : α → Bool) (init : α) (xs : List α) : α :=
  (xs.reverse.find? p).getD init

/-- The file count a line reports: the parsed capture of a match of the file pattern. -/
def reportedFiles (line : List Char) : Option Int :=
  match FindStringSubmatch numDownloadedRE line with
  | _ :: g :: _ => atoi g
  | _ => none

/-- The size a line reports: the capture of a match of the size pattern. -/
def reportedSize (line : List Char) : Option (List Char) :=
  match FindStringSubmatch sizeDownloadedRE line with
  | _ :: g :: _ => some g
  | _ => none

/-- The error count a line reports: the parsed capture of a match of the error pattern. -/
def reportedErrors (line : List Char) : Option Int :=
  match FindStringSubmatch numErrorsRE line with
  | _ :: g :: _ => atoi g
  | _ => none

/-! ## Lemmas on the matcher -/

theorem starLoop_nil {α : Type} (p : Char → Bool) (k : List Char → Option α) :
    starLoop p k [] = k [] := rfl

theorem starLoop_cons {α : Type} (p : Char → Bool) (k : List Char → Option α) (c : Char)
    (s : List Char) :
    starLoop p k (c :: s) =
      if p c then (starLoop p k s).orElse (fun _ => k (c :: s)) else k (c :: s) := rfl

/-- A successful repetition consumed characters of the class and then ran the continuation. -/
theorem starLoop_some {α : Type} (p : Char → Bool) (k : List Char → Option α) :
    ∀ (s : List Char) (r : α), starLoop p k s = some r →
      ∃ a b, s = a ++ b ∧ (∀ c ∈ a, p c = true) ∧ k b = some r
  | [], r, h => ⟨[], [], rfl, by simp, h⟩
  | c :: s, r, h => by
    rw [starLoop_cons] at h
    by_cases hp : p c = true
    · rw [if_pos hp] at h
      cases hs : starLoop p k s with
      | some r' =>
        rw [hs] at h
        simp only [Option.orElse, Option.some.injEq] at h
        subst h
        obtain ⟨a, b, e, ha, hk⟩ := starLoop_some p k s r' hs
        refine ⟨c :: a, b, by simp [e], ?_, hk⟩
        intro x hx
        rcases List.mem_cons.mp hx with rfl | hx
        · exact hp
        · exact ha x hx
      | none =>
        rw [hs] at h
        simp only [Option.orElse] at h
        exact ⟨[], c :: s, rfl, by simp, h⟩
    · rw [if_neg hp] at h
      exact ⟨[], c :: s, rfl, by simp, h⟩

/-- Maximal munch: a run of class characters that the class cannot extend is consumed
whole when the continuation succeeds behind it. -/
theorem starLoop_munch {α : Type} (p : Char → Bool) (k : List Char → Option α)
    (xs rest : List Char) (r : α) (hxs : ∀ c ∈ xs, p c = true)
    (hrest : ∀ c t, rest = c :: t → p c = false) (hk : k rest = some r) :
    starLoop p k (xs ++ rest) = some r := by
  induction xs with
  | nil =>
    cases rest with
    | nil => simpa [starLoop_nil] using hk
    | cons c t =>
      have hc : p c = false := hrest c t rfl
      simp [starLoop_cons, hc, hk]
  | cons x xs ih =>
    have hx : p x = true := hxs x (List.mem_cons_self _ _)
    have ih' := ih (fun c hc => hxs c (List.mem_cons_of_mem _ hc))
    simp [starLoop_cons, hx, ih', Option.orElse]

/-- A repetition fails when its continuation fails at every position. -/
theorem starLoop_none {α : Type} (p : Char → Bool) (k : List Char → Option α) :
    ∀ (s : List Char), (∀ u, u <:+ s → k u = none) → starLoop p k s = none
  | [], h => by simpa [starLoop_nil] using h [] (List.suffix_refl _)
  | c :: s, h => by
    have h1 : starLoop p k s = none :=
      starLoop_none p k s (fun u hu => h u (hu.trans (List.suffix_cons c s)))
    have h2 : k (c :: s) = none := h _ (List.suffix_refl _)
    by_cases hp : p c = true <;> simp [starLoop_cons, hp, h1, h2, Option.orElse]

/-- A greedy repetition stops at the last position at which the continuation succeeds. -/
theorem starLoop_last {α : Type} (p : Char → Bool) (k : List Char → Option α)
    (a b : List Char) (r : α) (ha : ∀ c ∈ a, p c = true) (hk : k b = some r)
    (hfail : ∀ u, u <:+ b → u ≠ b → k u = none) :
    starLoop p k (a ++ b) = some r := by
  induction a with
  | nil =>
    cases b with
    | nil => simpa [starLoop_nil] using hk
    | cons c t =>
      have h1 : starLoop p k t = none := by
        apply starLoop_none
        intro u hu
        apply hfail u (hu.trans (List.suffix_cons c t))
        intro e
        have := hu.length_le
        rw [e] at this
        simp at this
      by_cases hp : p c = true <;> simp [starLoop_cons, hp, h1, hk, Option.orElse]
  | cons x a ih =>
    have hx : p x = true := ha x (List.mem_cons_self _ _)
    have ih' := ih (fun c hc => ha c (List.mem_cons_of_mem _ hc))
    simp [starLoop_cons, hx, ih', Option.orElse]

/-- A repetition succeeds when its continuation succeeds behind a run of class characters. -/
theorem starLoop_isSome {α : Type} (p : Char → Bool) (k : List Char → Option α)
    (a b : List Char) (ha : ∀ c ∈ a, p c = true) (hk : (k b).isSome = true) :
    (starLoop p k (a ++ b)).isSome = true := by
  induction a with
  | nil =>
    cases b with
    | nil => simpa [starLoop_nil] using hk
    | cons c t =>
      by_cases hp : p c = true
      · cases hs : starLoop p k t <;> simp [starLoop_cons, hp, hs, hk, Option.orElse]
      · simp [starLoop_cons, hp, hk]
  | cons x a ih =>
    have hx : p x = true := ha x (List.mem_cons_self _ _)
    have ih' := ih (fun c hc => ha c (List.mem_cons_of_mem _ hc))
    obtain ⟨r, hr⟩ := Option.isSome_iff_exists.mp ih'
    simp [starLoop_cons, hx, hr, Option.orElse]

theorem lit_eq (s : String) : lit s = litNodes s.toList := rfl

/-- A literal consumes itself. -/
theorem run_litNodes (cs : List Char) (ns : List Node) (t : List Char) :
    run (litNodes cs ++ ns) (cs ++ t) = run ns t := by
  induction cs with
  | nil => rfl
  | cons c cs ih =>
    show run (Node.cls (isChar c) :: (litNodes cs ++ ns)) (c :: (cs ++ t)) = run ns t
    simp [run, isChar, ih]

/-- A pattern that starts with a literal matches only an input that starts with it. -/
theorem run_litNodes_some (cs : List Char) (ns : List Node) :
    ∀ (s : List Char) (r : List (List Char)), run (litNodes cs ++ ns) s = some r →
      ∃ t, s = cs ++ t ∧ run ns t = some r := by
  induction cs with
  | nil => intro s r h; exact ⟨s, rfl, h⟩
  | cons c cs ih =>
    intro s r h
    change run (Node.cls (isChar c) :: (litNodes cs ++ ns)) s = some r at h
    cases s with
    | nil => simp [run] at h
    | cons x s =>
      simp only [run] at h
      by_cases hx : isChar c x = true
      · rw [if_pos hx] at h
        obtain ⟨t, e, ht⟩ := ih s r h
        have : x = c := by simpa [isChar] using hx
        exact ⟨t, by rw [this, e]; rfl, ht⟩
      · rw [if_neg hx] at h
        exact absurd h (by simp)

/-- The search skips the start positions at which the pattern cannot match. -/
theorem search_skip (re : List Node) (shape : List Char → Bool)
    (hshape : ∀ t r, run re t = some r → shape t = true) (s : List Char) :
    ∀ (pre : List Char), occursEarlier shape pre s = false →
      search re (pre ++ s) = search re s
  | [], _ => rfl
  | c :: pre, h => by
    simp only [occursEarlier, Bool.or_eq_false_iff] at h
    have hnone : run re (c :: pre ++ s) = none := by
      cases hr : run re (c :: pre ++ s) with
      | none => rfl
      | some r => rw [hshape _ r hr] at h; exact absurd h.1 (by simp)
    have ih := search_skip re shape hshape s pre h.2
    show search re (c :: (pre ++ s)) = search re s
    rw [search]
    have hnone' : run re (c :: (pre ++ s)) = none := hnone
    rw [hnone']
    simpa [Option.orElse] using ih

/-- The search stops at a start position at which the pattern matches. -/
theorem search_here (re : List Node) (s : List Char) (r : List (List Char))
    (h : run re s = some r) : search re s = some (s, r) := by
  cases s with
  | nil => simp [search, h]
  | cons c s => simp [search, h, Option.orElse]

/-- The text between the front of `d ++ x` and `x` is `d`. -/
theorem between_append (d x : List Char) : between (d ++ x) x = d := by
  simp [between]

theorem run_capOpen (ns : List Node) (s : List Char) :
    run (Node.capOpen :: ns) s = (run ns s).map (fun r => s :: r) := rfl

theorem run_capClose (ns : List Node) (s : List Char) :
    run (Node.capClose :: ns) s = (run ns s).map (fun r => s :: r) := rfl

theorem run_cls_cons (p : Char → Bool) (ns : List Node) (c : Char) (t : List Char) :
    run (Node.cls p :: ns) (c :: t) = if p c then run ns t else none := rfl

theorem run_star (p : Char → Bool) (ns : List Node) (s : List Char) :
    run (Node.star p :: ns) s = starLoop p (run ns) s := rfl

theorem run_plus_cons (p : Char → Bool) (ns : List Node) (c : Char) (t : List Char) :
    run (Node.plus p :: ns) (c :: t) = if p c then starLoop p (run ns) t else none := rfl

/-- Maximal munch for `p+`. -/
theorem run_plus_munch (p : Char → Bool) (ns : List Node) (xs rest : List Char)
    (r : List (List Char)) (hne : xs ≠ []) (hxs : ∀ c ∈ xs, p c = true)
    (hrest : ∀ c t, rest = c :: t → p c = false) (hk : run ns rest = some r) :
    run (Node.plus p :: ns) (xs ++ rest) = some r := by
  cases xs with
  | nil => exact absurd rfl hne
  | cons x xs =>
    have hx : p x = true := hxs x (List.mem_cons_self _ _)
    show run (Node.plus p :: ns) (x :: (xs ++ rest)) = some r
    rw [run_plus_cons, if_pos hx]
    exact starLoop_munch p (run ns) xs rest r (fun c hc => hxs c (List.mem_cons_of_mem _ hc))
      hrest hk

/-- A match of `p+` consumed one class character or more. -/
theorem run_plus_some (p : Char → Bool) (ns : List Node) (s : List Char)
    (r : List (List Char)) (h : run (Node.plus p :: ns) s = some r) :
    ∃ a b, s = a ++ b ∧ a ≠ [] ∧ (∀ c ∈ a, p c = true) ∧ run ns b = some r := by
  cases s with
  | nil => simp [run] at h
  | cons x s =>
    rw [run_plus_cons] at h
    by_cases hx : p x = true
    · rw [if_pos hx] at h
      obtain ⟨a, b, e, ha, hk⟩ := starLoop_some p (run ns) s r h
      refine ⟨x :: a, b, by simp [e], by simp, ?_, hk⟩
      intro c hc
      rcases List.mem_cons.mp hc with rfl | hc
      · exact hx
      · exact ha c hc
    · rw [if_neg hx] at h
      exact absurd h (by simp)

/-- A match of a single class item consumed one class character. -/
theorem run_cls_some (p : Char → Bool) (ns : List Node) (s : List Char)
    (r : List (List Char)) (h : run (Node.cls p :: ns) s = some r) :
    ∃ c t, s = c :: t ∧ p c = true ∧ run ns t = some r := by
  cases s with
  | nil => simp [run] at h
  | cons x s =>
    rw [run_cls_cons] at h
    by_cases hx : p x = true
    · rw [if_pos hx] at h
      exact ⟨x, s, rfl, hx, h⟩
    · rw [if_neg hx] at h
      exact absurd h (by simp)

theorem isDigit_not_space (c : Char) (h : isDigit c = true) : isSpace c = false := by
  simp only [isDigit, Bool.and_eq_true, decide_eq_true_eq] at h
  have h1 : (48 : Nat) ≤ c.toNat := h.1
  simp only [isSpace, Bool.or_eq_false_iff, decide_eq_false_iff_not]
  refine ⟨⟨⟨⟨?_, ?_⟩, ?_⟩, ?_⟩, ?_⟩ <;> (intro e; rw [e] at h1; exact absurd h1 (by decide))

theorem isDigit_not_sign (c : Char) (h : isDigit c = true) : c ≠ '+' ∧ c ≠ '-' := by
  simp only [isDigit, Bool.and_eq_true, decide_eq_true_eq] at h
  have h1 : (48 : Nat) ≤ c.toNat := h.1
  constructor <;> (intro e; rw [e] at h1; exact absurd h1 (by decide))

theorem dropWhile_append_all (p : Char → Bool) (v w : List Char)
    (hv : ∀ c ∈ v, p c = true) : (v ++ w).dropWhile p = w.dropWhile p := by
  induction v with
  | nil => rfl
  | cons x v ih =>
    have hx : p x = true := hv x (List.mem_cons_self _ _)
    simp [List.dropWhile, hx, ih (fun c hc => hv c (List.mem_cons_of_mem _ hc))]

/-- Parsing a run of digits gives its value, unless the value exceeds the range of `int`. -/
theorem atoi_digits (d : List Char) (hd : d ≠ []) (hd' : ∀ c ∈ d, isDigit c = true) :
    atoi d = if (digitsValue d : Int) ≤ maxInt then some (digitsValue d : Int) else none := by
  have hp : parseDigits d = some (digitsValue d) := by
    simp only [parseDigits, List.all_eq_true]
    rw [if_pos ⟨hd, hd'⟩]
  have hmin : minInt ≤ (digitsValue d : Int) := by
    have : (0 : Int) ≤ (digitsValue d : Int) := Int.ofNat_nonneg _
    have h2 : minInt ≤ 0 := by decide
    exact le_trans h2 this
  cases d with
  | nil => exact absurd rfl hd
  | cons x t =>
    have hx := isDigit_not_sign x (hd' x (List.mem_cons_self _ _))
    unfold atoi
    split
    · rename_i e
      exact absurd (List.cons.inj e).1 hx.1
    · rename_i e
      exact absurd (List.cons.inj e).1 hx.2
    · simp [hp, hmin]

/-- A pattern without capture parentheses reports only where its match ended. -/
theorem run_capFree : ∀ (ns : List Node), ns.all (fun n => !n.isCap) = true →
    ∀ (s : List Char) (r : List (List Char)), run ns s = some r → ∃ e, r = [e]
  | [], _, s, r, h => ⟨s, by simpa [run] using h.symm⟩
  | Node.cls p :: ns, hc, s, r, h => by
    obtain ⟨_, t, _, _, ht⟩ := run_cls_some p ns s r h
    exact run_capFree ns (by simpa [Node.isCap] using hc) t r ht
  | Node.star p :: ns, hc, s, r, h => by
    rw [run_star] at h
    obtain ⟨_, b, _, _, hb⟩ := starLoop_some p (run ns) s r h
    exact run_capFree ns (by simpa [Node.isCap] using hc) b r hb
  | Node.plus p :: ns, hc, s, r, h => by
    obtain ⟨_, b, _, _, _, hb⟩ := run_plus_some p ns s r h
    exact run_capFree ns (by simpa [Node.isCap] using hc) b r hb
  | Node.capOpen :: ns, hc, _, _, _ => by simp [Node.isCap] at hc
  | Node.capClose :: ns, hc, _, _, _ => by simp [Node.isCap] at hc

/-- A result of the search is a match at a position of the input. -/
theorem search_some (re : List Node) :
    ∀ (s start : List Char) (r : List (List Char)), search re s = some (start, r) →
      start <:+ s ∧ run re start = some r
  | [], start, r, h => by
    cases hr : run re [] with
    | none => simp [search, hr] at h
    | some r' =>
      simp only [search, hr, Option.map_some', Option.some.injEq, Prod.mk.injEq] at h
      obtain ⟨rfl, rfl⟩ := h
      exact ⟨List.suffix_refl _, hr⟩
  | c :: s, start, r, h => by
    cases hr : run re (c :: s) with
    | none =>
      simp only [search, hr, Option.map_none', Option.orElse] at h
      obtain ⟨h1, h2⟩ := search_some re s start r h
      exact ⟨h1.trans (List.suffix_cons c s), h2⟩
    | some r' =>
      simp only [search, hr, Option.map_some', Option.orElse, Option.some.injEq,
        Prod.mk.injEq] at h
      obtain ⟨rfl, rfl⟩ := h
      exact ⟨List.suffix_refl _, hr⟩

/-- The submatch of a line whose first text of the shape starts a match. -/
theorem findSubmatch_of_run (re : List Node) (shape : List Char → Bool)
    (hshape : ∀ t r, run re t = some r → shape t = true) (pre s o c e : List Char)
    (hfirst : occursEarlier shape pre s = false) (h : run re s = some [o, c, e]) :
    FindStringSubmatch re (pre ++ s) = [between s e, between o c] := by
  unfold FindStringSubmatch
  rw [search_skip re shape hshape s pre hfirst, search_here re s _ h]

/-- A pattern that starts with a label matches only an input that starts with it. -/
theorem startsWith_of_run (lbl : List Char) (ns : List Node) (t : List Char)
    (r : List (List Char)) (h : run (litNodes lbl ++ ns) t = some r) :
    startsWith lbl t = true := by
  obtain ⟨u, rfl, _⟩ := run_litNodes_some lbl ns t r h
  simp [startsWith, List.isPrefixOf_iff_prefix]

/-- A pattern that starts with a label, `\s+` and a group that starts with `\d+` matches
only an input that starts with the label, whitespace and a digit. -/
theorem labelledNumber_of_run (lbl : List Char) (ns : List Node) (t : List Char)
    (r : List (List Char))
    (h : run (litNodes lbl ++ Node.plus isSpace :: Node.capOpen :: Node.plus isDigit :: ns) t
      = some r) :
    labelledNumber lbl t = true := by
  have hs := startsWith_of_run lbl _ t r h
  obtain ⟨u, rfl, hu⟩ := run_litNodes_some lbl _ t r h
  obtain ⟨a, b, rfl, ha, ha', hb⟩ := run_plus_some isSpace _ u r hu
  rw [run_capOpen] at hb
  cases hb' : run (Node.plus isDigit :: ns) b with
  | none => simp [hb'] at hb
  | some r' =>
    obtain ⟨a2, b2, rfl, ha2, ha2', _⟩ := run_plus_some isDigit ns b r' hb'
    cases a with
    | nil => exact absurd rfl ha
    | cons w a =>
      cases a2 with
      | nil => exact absurd rfl ha2
      | cons x a2 =>
        have hw : isSpace w = true := ha' w (List.mem_cons_self _ _)
        have hx : isDigit x = true := ha2' x (List.mem_cons_self _ _)
        have hxs : isSpace x = false := isDigit_not_space x hx
        have hdrop : (a ++ (x :: a2 ++ b2)).dropWhile isSpace = x :: (a2 ++ b2) := by
          rw [dropWhile_append_all isSpace a _ (fun c hc => ha' c (List.mem_cons_of_mem _ hc))]
          simp [List.dropWhile, hxs]
        simp only [labelledNumber, hs, Bool.true_and, List.drop_left]
        show spaceThenDigit (w :: (a ++ (x :: a2 ++ b2))) = true
        simp only [spaceThenDigit, hw, Bool.true_and, hdrop, hx]

/-- The error pattern at a label that is followed by whitespace and a maximal digit run. -/
theorem run_numErrorsRE (ws d rest : List Char) (hws : ws ≠ [])
    (hws' : ∀ c ∈ ws, isSpace c = true) (hd : d ≠ []) (hd' : ∀ c ∈ d, isDigit c = true)
    (hmax : ∀ c t, rest = c :: t → isDigit c = false) :
    run numErrorsRE (errorsLabel ++ (ws ++ (d ++ rest))) = some [d ++ rest, rest, rest] := by
  show run (litNodes errorsLabel ++
    [Node.plus isSpace, Node.capOpen, Node.plus isDigit, Node.capClose])
    (errorsLabel ++ (ws ++ (d ++ rest))) = _
  rw [run_litNodes]
  apply run_plus_munch isSpace _ ws (d ++ rest) _ hws hws'
  · intro c t e
    cases d with
    | nil => exact absurd rfl hd
    | cons x d =>
      have hx := isDigit_not_space x (hd' x (List.mem_cons_self _ _))
      have : x = c := (List.cons.inj e).1
      rw [← this]; exact hx
  · rw [run_capOpen]
    have h2 : run [Node.plus isDigit, Node.capClose] (d ++ rest) = some [rest, rest] :=
      run_plus_munch isDigit [Node.capClose] d rest [rest, rest] hd hd' hmax rfl
    rw [h2]; rfl

/-- The tail of the file pattern behind `.*`: `,\s+100%`. -/
theorem run_hundred (ws2 post : List Char) (hws2 : ws2 ≠ [])
    (hws2' : ∀ c ∈ ws2, isSpace c = true) :
    run (Node.cls (isChar ',') :: Node.plus isSpace :: litNodes hundredLabel)
      (',' :: (ws2 ++ (hundredLabel ++ post))) = some [post] := by
  rw [run_cls_cons, if_pos (by rfl)]
  apply run_plus_munch isSpace _ ws2 (hundredLabel ++ post) _ hws2 hws2'
  · intro c t e
    have : '1' = c := (List.cons.inj e).1
    rw [← this]; rfl
  · have h := run_litNodes hundredLabel [] post
    rw [List.append_nil] at h
    rw [h]; rfl

/-- The file pattern at a label that is followed by whitespace, a maximal digit run and,
later on the line, by a comma, whitespace and `100%`. -/
theorem run_numDownloadedRE (ws d after ws2 post : List Char) (hws : ws ≠ [])
    (hws' : ∀ c ∈ ws, isSpace c = true) (hd : d ≠ []) (hd' : ∀ c ∈ d, isDigit c = true)
    (hmax : ∀ c t, after = c :: t → isDigit c = false)
    (hafter : ∀ c ∈ after, isDot c = true) (hws2 : ws2 ≠ [])
    (hws2' : ∀ c ∈ ws2, isSpace c = true) :
    ∃ e, run numDownloadedRE
        (transferredLabel ++ (ws ++ (d ++ (after ++ (',' :: (ws2 ++ (hundredLabel ++ post)))))))
      = some [d ++ (after ++ (',' :: (ws2 ++ (hundredLabel ++ post)))),
          after ++ (',' :: (ws2 ++ (hundredLabel ++ post))), e] := by
  have hk3 := run_hundred ws2 post hws2 hws2'
  have hsome := starLoop_isSome isDot
    (run (Node.cls (isChar ',') :: Node.plus isSpace :: litNodes hundredLabel))
    after (',' :: (ws2 ++ (hundredLabel ++ post))) hafter (by rw [hk3]; rfl)
  obtain ⟨r, hr⟩ := Option.isSome_iff_exists.mp hsome
  obtain ⟨_, b, _, _, hb⟩ := starLoop_some _ _ _ r hr
  obtain ⟨e, rfl⟩ := run_capFree _ (by rfl) b r hb
  refine ⟨e, ?_⟩
  show run (litNodes transferredLabel ++
    (Node.plus isSpace :: Node.capOpen :: Node.plus isDigit :: Node.capClose ::
      Node.star isDot :: Node.cls (isChar ',') :: Node.plus isSpace :: litNodes hundredLabel))
    _ = _
  rw [run_litNodes]
  apply run_plus_munch isSpace _ ws _ _ hws hws'
  · intro c t e'
    cases d with
    | nil => exact absurd rfl hd
    | cons x d =>
      have hx := isDigit_not_space x (hd' x (List.mem_cons_self _ _))
      have : x = c := (List.cons.inj e').1
      rw [← this]; exact hx
  · rw [run_capOpen]
    have h2 : run (Node.plus isDigit :: Node.capClose :: Node.star isDot ::
        Node.cls (isChar ',') :: Node.plus isSpace :: litNodes hundredLabel)
        (d ++ (after ++ (',' :: (ws2 ++ (hundredLabel ++ post)))))
        = some [after ++ (',' :: (ws2 ++ (hundredLabel ++ post))), e] := by
      apply run_plus_munch isDigit _ d _ _ hd hd'
      · intro c t e'
        cases after with
        | nil =>
          have : ',' = c := (List.cons.inj e').1
          rw [← this]; rfl
        | cons y after =>
          have : y = c := (List.cons.inj e').1
          rw [← this]; exact hmax y after rfl
      · rw [run_capClose, run_star, hr]; rfl
    rw [h2]; rfl

/-- The file count of a line whose first text of the shape is a label followed by
whitespace, a maximal digit run and, later on the line, a comma, whitespace and `100%`. -/
theorem extractFiles_of_shape (shape : List Char → Bool)
    (hshape : ∀ t r, run numDownloadedRE t = some r → shape t = true)
    (pre ws d after ws2 post : List Char)
    (hfirst : occursEarlier shape pre
      (transferredLabel ++ (ws ++ (d ++ (after ++ (',' :: (ws2 ++ (hundredLabel ++ post)))))))
      = false)
    (hws : ws ≠ []) (hws' : ∀ c ∈ ws, isSpace c = true) (hd : d ≠ [])
    (hd' : ∀ c ∈ d, isDigit c = true) (hfit : (digitsValue d : Int) ≤ maxInt)
    (hmax : ∀ c t, after = c :: t → isDigit c = false)
    (hafter : ∀ c ∈ after, isDot c = true) (hws2 : ws2 ≠ [])
    (hws2' : ∀ c ∈ ws2, isSpace c = true) :
    extractFiles (pre ++ (transferredLabel ++
      (ws ++ (d ++ (after ++ (',' :: (ws2 ++ (hundredLabel ++ post)))))))) = (digitsValue d : Int) := by
  obtain ⟨e, he⟩ := run_numDownloadedRE ws d after ws2 post hws hws' hd hd' hmax hafter hws2 hws2'
  unfold extractFiles
  rw [findSubmatch_of_run numDownloadedRE shape hshape pre _ _ _ e hfirst he, between_append]
  dsimp only
  rw [atoi_digits d hd hd', if_pos hfit]

theorem numDownloadedRE_eq :
    numDownloadedRE = litNodes transferredLabel ++
      (Node.plus isSpace :: Node.capOpen :: Node.plus isDigit :: Node.capClose ::
        Node.star isDot :: Node.cls (isChar ',') :: Node.plus isSpace ::
        litNodes hundredLabel) := rfl

theorem sizeDownloadedRE_eq :
    sizeDownloadedRE = litNodes transferredLabel ++
      (Node.plus isSpace :: Node.capOpen :: Node.plus isDigit :: Node.star isDot ::
        Node.capClose :: Node.cls isSpace :: Node.cls (isChar '/') :: Node.cls isSpace ::
        Node.star isDot :: litNodes etaLabel) := rfl

theorem numErrorsRE_eq :
    numErrorsRE = litNodes errorsLabel ++
      [Node.plus isSpace, Node.capOpen, Node.plus isDigit, Node.capClose] := rfl

/-- A pattern that is a literal matches only an input that starts with it. -/
theorem run_litNodes_only (cs s : List Char) (r : List (List Char))
    (h : run (litNodes cs) s = some r) : ∃ t, s = cs ++ t := by
  have h' : run (litNodes cs ++ []) s = some r := by rwa [List.append_nil]
  obtain ⟨t, e, _⟩ := run_litNodes_some cs [] s r h'
  exact ⟨t, e⟩

/-- A match of the file pattern decomposes the input. -/
theorem run_numDownloadedRE_some (start o c e : List Char)
    (h : run numDownloadedRE start = some [o, c, e]) :
    ∃ ws d after ws2 post,
      start = transferredLabel ++ (ws ++ (d ++ (after ++ (',' :: (ws2 ++ (hundredLabel ++ post)))))) ∧
      ws ≠ [] ∧ (∀ x ∈ ws, isSpace x = true) ∧ d ≠ [] ∧ (∀ x ∈ d, isDigit x = true) ∧
      (∀ x ∈ after, isDot x = true) ∧ ws2 ≠ [] ∧ (∀ x ∈ ws2, isSpace x = true) ∧
      between o c = d := by
  rw [numDownloadedRE_eq] at h
  obtain ⟨u, rfl, hu⟩ := run_litNodes_some _ _ _ _ h
  obtain ⟨ws, b1, rfl, hws, hws', h1⟩ := run_plus_some _ _ _ _ hu
  rw [run_capOpen] at h1
  cases h1' : run (Node.plus isDigit :: Node.capClose :: Node.star isDot ::
      Node.cls (isChar ',') :: Node.plus isSpace :: litNodes hundredLabel) b1 with
  | none => rw [h1'] at h1; exact absurd h1 (by simp)
  | some r1 =>
    rw [h1'] at h1
    simp only [Option.map_some', Option.some.injEq, List.cons.injEq] at h1
    obtain ⟨rfl, rfl⟩ := h1
    obtain ⟨d, b2, rfl, hd, hd', h2⟩ := run_plus_some _ _ _ _ h1'
    rw [run_capClose] at h2
    cases h2' : run (Node.star isDot :: Node.cls (isChar ',') :: Node.plus isSpace ::
        litNodes hundredLabel) b2 with
    | none => rw [h2'] at h2; exact absurd h2 (by simp)
    | some r2 =>
      rw [h2'] at h2
      simp only [Option.map_some', Option.some.injEq, List.cons.injEq] at h2
      obtain ⟨rfl, rfl⟩ := h2
      rw [run_star] at h2'
      obtain ⟨after, b3, rfl, hafter, h3⟩ := starLoop_some _ _ _ _ h2'
      obtain ⟨x, b4, rfl, hx, h4⟩ := run_cls_some _ _ _ _ h3
      obtain ⟨ws2, b5, rfl, hws2, hws2', h5⟩ := run_plus_some _ _ _ _ h4
      obtain ⟨post, rfl⟩ := run_litNodes_only _ _ _ h5
      have hx' : x = ',' := by simpa [isChar] using hx
      subst hx'
      exact ⟨ws, d, after, ws2, post, rfl, hws, hws', hd, hd', hafter, hws2, hws2',
        between_append _ _⟩

/-- A non-zero file count comes from a digit run behind `Transferred:` and whitespace,
with a comma, whitespace and `100%` later on the line. -/
theorem extractFiles_ne_zero (line : List Char) (h : extractFiles line ≠ 0) :
    ∃ pre ws d after ws2 post,
      line = pre ++ (transferredLabel ++
        (ws ++ (d ++ (after ++ (',' :: (ws2 ++ (hundredLabel ++ post))))))) ∧
      ws ≠ [] ∧ (∀ x ∈ ws, isSpace x = true) ∧ d ≠ [] ∧ (∀ x ∈ d, isDigit x = true) ∧
      (∀ x ∈ after, x ≠ '\n') ∧ ws2 ≠ [] ∧ (∀ x ∈ ws2, isSpace x = true) ∧
      extractFiles line = (digitsValue d : Int) := by
  unfold extractFiles FindStringSubmatch at h
  cases hs : search numDownloadedRE line with
  | none => rw [hs] at h; exact absurd rfl h
  | some sr =>
    obtain ⟨start, r⟩ := sr
    obtain ⟨hsuf, hrun⟩ := search_some _ _ _ _ hs
    have hshape : ∃ o c e, r = [o, c, e] := by
      match r, h, hs with
      | [o, c, e], _, _ => exact ⟨o, c, e, rfl⟩
      | [], h, hs => rw [hs] at h; exact absurd rfl h
      | [_], h, hs => rw [hs] at h; exact absurd rfl h
      | [_, _], h, hs => rw [hs] at h; exact absurd rfl h
      | _ :: _ :: _ :: _ :: _, h, hs => rw [hs] at h; exact absurd rfl h
    obtain ⟨o, c, e, rfl⟩ := hshape
    obtain ⟨ws, d, after, ws2, post, rfl, hws, hws', hd, hd', hafter, hws2, hws2', hg⟩ :=
      run_numDownloadedRE_some _ _ _ _ hrun
    obtain ⟨pre, rfl⟩ := hsuf
    have hval : extractFiles (pre ++ (transferredLabel ++
        (ws ++ (d ++ (after ++ (',' :: (ws2 ++ (hundredLabel ++ post))))))))
        = if (digitsValue d : Int) ≤ maxInt then (digitsValue d : Int) else 0 := by
      unfold extractFiles FindStringSubmatch
      rw [hs]
      dsimp only
      rw [hg, atoi_digits d hd hd']
      by_cases hfit : (digitsValue d : Int) ≤ maxInt
      · rw [if_pos hfit, if_pos hfit]
      · rw [if_neg hfit, if_neg hfit]
    have hfit : (digitsValue d : Int) ≤ maxInt := by
      by_contra hn
      rw [hs] at h
      dsimp only at h
      rw [hg, atoi_digits d hd hd', if_neg hn] at h
      exact h rfl
    refine ⟨pre, ws, d, after, ws2, post, rfl, hws, hws', hd, hd', ?_, hws2, hws2', ?_⟩
    · intro x hx
      simpa [isDot] using hafter x hx
    · rw [hval, if_pos hfit]

theorem takeWhile_all (p : Char → Bool) :
    ∀ (l : List Char), ∀ c ∈ l.takeWhile p, p c = true
  | [], c, hc => by simp at hc
  | x :: l, c, hc => by
    by_cases hx : p x = true
    · rw [List.takeWhile_cons, if_pos hx] at hc
      rcases List.mem_cons.mp hc with rfl | hc
      · exact hx
      · exact takeWhile_all p l c hc
    · rw [List.takeWhile_cons, if_neg hx] at hc
      simp at hc

theorem dropWhile_head (p : Char → Bool) :
    ∀ (l : List Char) (c : Char) (t : List Char), l.dropWhile p = c :: t → p c = false
  | [], c, t, h => by simp at h
  | x :: l, c, t, h => by
    by_cases hx : p x = true
    · rw [List.dropWhile_cons, if_pos hx] at h
      exact dropWhile_head p l c t h
    · rw [List.dropWhile_cons, if_neg hx] at h
      have : x = c := (List.cons.inj h).1
      rw [← this]
      simpa using hx

theorem dropWhile_mem (p : Char → Bool) :
    ∀ (l : List Char), ∀ c ∈ l.dropWhile p, c ∈ l
  | [], c, hc => by simp at hc
  | x :: l, c, hc => by
    by_cases hx : p x = true
    · rw [List.dropWhile_cons, if_pos hx] at hc
      exact List.mem_cons_of_mem _ (dropWhile_mem p l c hc)
    · rw [List.dropWhile_cons, if_neg hx] at hc
      exact hc

theorem hasSlashSeparator_suffix :
    ∀ (T u : List Char), hasSlashSeparator T = false → u <:+ T → hasSlashSeparator u = false
  | [], u, _, hu => by
    have : u = [] := List.eq_nil_of_suffix_nil hu
    rw [this]; rfl
  | a :: T, u, h, hu => by
    rcases List.suffix_cons_iff.mp hu with rfl | hu'
    · exact h
    · simp only [hasSlashSeparator, Bool.or_eq_false_iff] at h
      exact hasSlashSeparator_suffix T u h.2 hu'

/-- The separator `\s\/\s` matches nowhere in a text without a whitespace-delimited slash. -/
theorem run_separator_none (ns : List Node) (u : List Char)
    (h : hasSlashSeparator u = false) :
    run (Node.cls isSpace :: Node.cls (isChar '/') :: Node.cls isSpace :: ns) u = none := by
  cases hr : run (Node.cls isSpace :: Node.cls (isChar '/') :: Node.cls isSpace :: ns) u with
  | none => rfl
  | some r =>
    obtain ⟨a, t1, rfl, ha, h1⟩ := run_cls_some _ _ _ _ hr
    obtain ⟨b, t2, rfl, hb, h2⟩ := run_cls_some _ _ _ _ h1
    obtain ⟨c, t3, rfl, hc, _⟩ := run_cls_some _ _ _ _ h2
    have hb' : b = '/' := by simpa [isChar] using hb
    simp [hasSlashSeparator, ha, hb', hc] at h

/-- The size pattern at a label that is followed by whitespace, a text `q` that begins
with a digit, the separator ` / ` and, later, `ETA`, when no whitespace-delimited slash
follows that separator. -/
theorem run_sizeDownloadedRE (ws q mid post : List Char) (hws : ws ≠ [])
    (hws' : ∀ c ∈ ws, isSpace c = true) (hq : q.head?.map isDigit = some true)
    (hqdot : ∀ c ∈ q, isDot c = true) (hmid : ∀ c ∈ mid, isDot c = true)
    (hlast : hasSlashSeparator (' ' :: (mid ++ (etaLabel ++ post))) = false) :
    ∃ e, run sizeDownloadedRE
        (transferredLabel ++ (ws ++ (q ++ (' ' :: '/' :: ' ' :: (mid ++ (etaLabel ++ post))))))
      = some [q ++ (' ' :: '/' :: ' ' :: (mid ++ (etaLabel ++ post))),
          ' ' :: '/' :: ' ' :: (mid ++ (etaLabel ++ post)), e] := by
  have hk_eta : run (litNodes etaLabel) (etaLabel ++ post) = some [post] := by
    have h := run_litNodes etaLabel [] post
    rw [List.append_nil] at h
    rw [h]; rfl
  have hsome := starLoop_isSome isDot (run (litNodes etaLabel)) mid (etaLabel ++ post) hmid
    (by rw [hk_eta]; rfl)
  obtain ⟨r, hr⟩ := Option.isSome_iff_exists.mp hsome
  obtain ⟨_, b, _, _, hb⟩ := starLoop_some _ _ _ r hr
  obtain ⟨e, rfl⟩ := run_capFree _ (by rfl) b r hb
  refine ⟨e, ?_⟩
  have hKS : run (Node.capClose :: Node.cls isSpace :: Node.cls (isChar '/') ::
      Node.cls isSpace :: Node.star isDot :: litNodes etaLabel)
      (' ' :: '/' :: ' ' :: (mid ++ (etaLabel ++ post)))
      = some [' ' :: '/' :: ' ' :: (mid ++ (etaLabel ++ post)), e] := by
    rw [run_capClose, run_cls_cons, if_pos (by rfl), run_cls_cons, if_pos (by rfl),
      run_cls_cons, if_pos (by rfl), run_star, hr]
    rfl
  have hfail : ∀ u, u <:+ ' ' :: '/' :: ' ' :: (mid ++ (etaLabel ++ post)) →
      u ≠ ' ' :: '/' :: ' ' :: (mid ++ (etaLabel ++ post)) →
      run (Node.capClose :: Node.cls isSpace :: Node.cls (isChar '/') ::
        Node.cls isSpace :: Node.star isDot :: litNodes etaLabel) u = none := by
    intro u hu hne
    rcases List.suffix_cons_iff.mp hu with rfl | hu1
    · exact absurd rfl hne
    · rcases List.suffix_cons_iff.mp hu1 with rfl | hu2
      · rw [run_capClose, run_cls_cons, if_neg (by decide)]
        rfl
      · rw [run_capClose, run_separator_none _ u (hasSlashSeparator_suffix _ u hlast hu2)]
        rfl
  cases q with
  | nil => simp at hq
  | cons x q' =>
    have hx : isDigit x = true := by simpa using hq
    rw [sizeDownloadedRE_eq, run_litNodes]
    apply run_plus_munch isSpace _ ws _ _ hws hws'
    · intro c t e'
      have : x = c := (List.cons.inj e').1
      rw [← this]; exact isDigit_not_space x hx
    · rw [run_capOpen]
      have h2 : run (Node.plus isDigit :: Node.star isDot :: Node.capClose ::
          Node.cls isSpace :: Node.cls (isChar '/') :: Node.cls isSpace :: Node.star isDot ::
          litNodes etaLabel)
          (x :: q' ++ (' ' :: '/' :: ' ' :: (mid ++ (etaLabel ++ post))))
          = some [' ' :: '/' :: ' ' :: (mid ++ (etaLabel ++ post)), e] := by
        show run _ (x :: (q' ++ (' ' :: '/' :: ' ' :: (mid ++ (etaLabel ++ post))))) = _
        rw [run_plus_cons, if_pos hx]
        have hsplit : q' = q'.takeWhile isDigit ++ q'.dropWhile isDigit :=
          (List.takeWhile_append_dropWhile isDigit q').symm
        rw [hsplit, List.append_assoc]
        apply starLoop_munch isDigit _ _ _ _ (takeWhile_all isDigit q')
        · intro c t e'
          cases hq2 : q'.dropWhile isDigit with
          | nil =>
            rw [hq2] at e'
            have : ' ' = c := (List.cons.inj e').1
            rw [← this]; rfl
          | cons y q2 =>
            rw [hq2] at e'
            have : y = c := (List.cons.inj e').1
            rw [← this]
            exact dropWhile_head isDigit q' y q2 hq2
        · rw [run_star]
          apply starLoop_last isDot _ _ _ _ _ hKS hfail
          intro c hc
          exact hqdot c (List.mem_cons_of_mem _ (dropWhile_mem isDigit q' c hc))
      rw [h2]; rfl

/-- A match of the error pattern captures a run of digits. -/
theorem run_numErrorsRE_some (start o c e : List Char)
    (h : run numErrorsRE start = some [o, c, e]) :
    ∃ d, d ≠ [] ∧ (∀ x ∈ d, isDigit x = true) ∧ between o c = d := by
  rw [numErrorsRE_eq] at h
  obtain ⟨u, rfl, hu⟩ := run_litNodes_some _ _ _ _ h
  obtain ⟨ws, b1, rfl, _, _, h1⟩ := run_plus_some _ _ _ _ hu
  rw [run_capOpen] at h1
  cases h1' : run [Node.plus isDigit, Node.capClose] b1 with
  | none => rw [h1'] at h1; exact absurd h1 (by simp)
  | some r1 =>
    rw [h1'] at h1
    simp only [Option.map_some', Option.some.injEq, List.cons.injEq] at h1
    obtain ⟨rfl, rfl⟩ := h1
    obtain ⟨d, b2, rfl, hd, hd', h2⟩ := run_plus_some _ _ _ _ h1'
    rw [run_capClose] at h2
    simp only [run, Option.map_some', Option.some.injEq, List.cons.injEq] at h2
    obtain ⟨rfl, _⟩ := h2
    exact ⟨d, hd, hd', between_append _ _⟩

/-- A match of the size pattern captures a text that is not empty. -/
theorem run_sizeDownloadedRE_some (start o c e : List Char)
    (h : run sizeDownloadedRE start = some [o, c, e]) : between o c ≠ [] := by
  rw [sizeDownloadedRE_eq] at h
  obtain ⟨u, rfl, hu⟩ := run_litNodes_some _ _ _ _ h
  obtain ⟨ws, b1, rfl, _, _, h1⟩ := run_plus_some _ _ _ _ hu
  rw [run_capOpen] at h1
  cases h1' : run (Node.plus isDigit :: Node.star isDot :: Node.capClose ::
      Node.cls isSpace :: Node.cls (isChar '/') :: Node.cls isSpace :: Node.star isDot ::
      litNodes etaLabel) b1 with
  | none => rw [h1'] at h1; exact absurd h1 (by simp)
  | some r1 =>
    rw [h1'] at h1
    simp only [Option.map_some', Option.some.injEq, List.cons.injEq] at h1
    obtain ⟨rfl, rfl⟩ := h1
    obtain ⟨d, b2, rfl, hd, _, h2⟩ := run_plus_some _ _ _ _ h1'
    rw [run_star] at h2
    obtain ⟨a, b3, rfl, _, h3⟩ := starLoop_some _ _ _ _ h2
    rw [run_capClose] at h3
    cases h3' : run (Node.cls isSpace :: Node.cls (isChar '/') :: Node.cls isSpace ::
        Node.star isDot :: litNodes etaLabel) b3 with
    | none => rw [h3'] at h3; exact absurd h3 (by simp)
    | some r3 =>
      rw [h3'] at h3
      simp only [Option.map_some', Option.some.injEq, List.cons.injEq] at h3
      obtain ⟨rfl, _⟩ := h3
      rw [← List.append_assoc, between_append]
      intro hnil
      exact hd (List.append_eq_nil.mp hnil).1

/-- The shape of a result of `FindStringSubmatch`. -/
theorem findSubmatch_cases (re : List Node) (line : List Char) :
    FindStringSubmatch re line = [] ∨
    ∃ start o c e, run re start = some [o, c, e] ∧
      FindStringSubmatch re line = [between start e, between o c] := by
  unfold FindStringSubmatch
  cases hs : search re line with
  | none => exact Or.inl rfl
  | some sr =>
    obtain ⟨start, r⟩ := sr
    obtain ⟨_, hrun⟩ := search_some _ _ _ _ hs
    match r, hrun with
    | [o, c, e], hrun => exact Or.inr ⟨start, o, c, e, hrun, rfl⟩
    | [], _ => exact Or.inl rfl
    | [_], _ => exact Or.inl rfl
    | [_, _], _ => exact Or.inl rfl
    | _ :: _ :: _ :: _ :: _, _ => exact Or.inl rfl

theorem extractFiles_eq_reported (line : List Char) :
    extractFiles line = (reportedFiles line).getD 0 := by
  unfold extractFiles reportedFiles
  rcases findSubmatch_cases numDownloadedRE line with h | ⟨_, _, _, _, _, h⟩
  · rw [h]; rfl
  · rw [h]
    dsimp only
    cases atoi _ <;> rfl

theorem extractErrors_eq_reported (line : List Char) :
    extractErrors line = (reportedErrors line).getD 0 := by
  unfold extractErrors reportedErrors
  rcases findSubmatch_cases numErrorsRE line with h | ⟨_, _, _, _, _, h⟩
  · rw [h]; rfl
  · rw [h]
    dsimp only
    cases atoi _ <;> rfl

theorem extractSize_eq_reported (line : List Char) :
    extractSize line = (reportedSize line).getD [] := by
  unfold extractSize reportedSize
  rcases findSubmatch_cases sizeDownloadedRE line with h | ⟨_, _, _, _, _, h⟩
  · rw [h]; rfl
  · rw [h]; rfl

/-- A reported size is not empty. -/
theorem reportedSize_ne_nil (line g : List Char) (h : reportedSize line = some g) : g ≠ [] := by
  unfold reportedSize at h
  rcases findSubmatch_cases sizeDownloadedRE line with h' | ⟨_, o, c, e, hrun, h'⟩
  · rw [h'] at h; exact absurd h (by simp)
  · rw [h'] at h
    simp only [Option.some.injEq] at h
    rw [← h]
    exact run_sizeDownloadedRE_some _ o c e hrun

/-- A reported file count is not negative. -/
theorem reportedFiles_nonneg (line : List Char) (v : Int) (h : reportedFiles line = some v) :
    0 ≤ v := by
  unfold reportedFiles at h
  rcases findSubmatch_cases numDownloadedRE line with h' | ⟨_, o, c, e, hrun, h'⟩
  · rw [h'] at h; exact absurd h (by simp)
  · rw [h'] at h
    obtain ⟨_, d, _, _, _, _, _, _, hd, hd', _, _, _, hg⟩ := run_numDownloadedRE_some _ o c e hrun
    dsimp only at h
    rw [hg, atoi_digits d hd hd'] at h
    by_cases hfit : (digitsValue d : Int) ≤ maxInt
    · rw [if_pos hfit] at h
      simp only [Option.some.injEq] at h
      rw [← h]; exact Int.ofNat_nonneg _
    · rw [if_neg hfit] at h; exact absurd h (by simp)

/-- A reported error count is not negative. -/
theorem reportedErrors_nonneg (line : List Char) (v : Int) (h : reportedErrors line = some v) :
    0 ≤ v := by
  unfold reportedErrors at h
  rcases findSubmatch_cases numErrorsRE line with h' | ⟨_, o, c, e, hrun, h'⟩
  · rw [h'] at h; exact absurd h (by simp)
  · rw [h'] at h
    obtain ⟨d, hd, hd', hg⟩ := run_numErrorsRE_some _ o c e hrun
    dsimp only at h
    rw [hg, atoi_digits d hd hd'] at h
    by_cases hfit : (digitsValue d : Int) ≤ maxInt
    · rw [if_pos hfit] at h
      simp only [Option.some.injEq] at h
      rw [← h]; exact Int.ofNat_nonneg _
    · rw [if_neg hfit] at h; exact absurd h (by simp)

theorem extractFiles_nonneg (line : List Char) : 0 ≤ extractFiles line := by
  rw [extractFiles_eq_reported]
  cases h : reportedFiles line with
  | none => exact le_refl _
  | some v => exact reportedFiles_nonneg line v h

theorem extractErrors_nonneg (line : List Char) : 0 ≤ extractErrors line := by
  rw [extractErrors_eq_reported]
  cases h : reportedErrors line with
  | none => exact le_refl _
  | some v => exact reportedErrors_nonneg line v h

/-! ## Lemmas on the scanner loop -/

theorem scanLoop_append (ls : List (List Char)) (l : List Char) :
    scanLoop (ls ++ [l]) = scanStep (scanLoop ls) l := by
  simp [scanLoop, List.foldl_append]

theorem scanStep_files (acc : Progress) (l : List Char) :
    (scanStep acc l).numFilesDownloaded
      = if extractFiles l > 0 then extractFiles l else acc.numFilesDownloaded := by
  simp only [scanStep, ProcessStdoutLine]
  split_ifs <;> rfl

theorem scanStep_size (acc : Progress) (l : List Char) :
    (scanStep acc l).sizeDownloaded
      = if extractSize l ≠ [] then extractSize l else acc.sizeDownloaded := by
  simp only [scanStep, ProcessStdoutLine]
  split_ifs <;> rfl

theorem scanStep_errors (acc : Progress) (l : List Char) :
    (scanStep acc l).numErrors
      = if extractErrors l > 0 then extractErrors l else acc.numErrors := by
  simp only [scanStep, ProcessStdoutLine]
  split_ifs <;> rfl

theorem lastWhere_nil {α : Type} (p : α → Bool) (init : α) : lastWhere p init [] = init := rfl

theorem lastWhere_append {α : Type} (p : α → Bool) (init : α) (xs : List α) (x : α) :
    lastWhere p init (xs ++ [x]) = if p x then x else lastWhere p init xs := by
  unfold lastWhere
  rw [List.reverse_append, List.reverse_singleton, List.singleton_append, List.find?_cons]
  cases p x <;> simp

theorem pos_iff_ne_zero_of_nonneg (v : Int) (h : 0 ≤ v) : v > 0 ↔ v ≠ 0 := by
  omega

/-! ## Lemmas on binary64 rounding -/

theorem log2Loop_spec : ∀ (fuel n : Nat), n ≤ fuel → 0 < n →
    2 ^ log2Loop fuel n ≤ n ∧ n < 2 ^ (log2Loop fuel n + 1)
  | 0, n, h1, h2 => by omega
  | fuel + 1, n, h1, h2 => by
    by_cases hn : n < 2
    · have : n = 1 := by omega
      subst this
      simp [log2Loop]
    · have ih := log2Loop_spec fuel (n / 2) (by omega) (by omega)
      simp only [log2Loop, if_neg hn]
      have e1 : 2 ^ (log2Loop fuel (n / 2) + 1) = 2 * 2 ^ log2Loop fuel (n / 2) := by
        rw [pow_succ]; ring
      have e2 : 2 ^ (log2Loop fuel (n / 2) + 1 + 1) = 2 * 2 ^ (log2Loop fuel (n / 2) + 1) := by
        rw [pow_succ]; ring
      rw [e2]
      constructor <;> omega

theorem log2_spec (n : Nat) (h : 0 < n) : 2 ^ log2 n ≤ n ∧ n < 2 ^ (log2 n + 1) :=
  log2Loop_spec n n (le_refl _) h

/-- A non-zero rational lies in its binade. -/
theorem binade_spec (q : ℚ) (hq : q ≠ 0) :
    (2 : ℚ) ^ binade q ≤ |q| ∧ |q| < (2 : ℚ) ^ (binade q + 1) := by
  have hn : 0 < q.num.natAbs := Int.natAbs_pos.mpr (Rat.num_ne_zero.mpr hq)
  have hd : 0 < q.den := q.den_pos
  obtain ⟨n1, n2⟩ := log2_spec _ hn
  obtain ⟨d1, d2⟩ := log2_spec _ hd
  have habs : |q| = (q.num.natAbs : ℚ) / (q.den : ℚ) := by
    conv_lhs => rw [← Rat.num_div_den q]
    rw [abs_div, Nat.abs_cast, Nat.cast_natAbs, Int.cast_abs]
  have hdpos : (0 : ℚ) < (q.den : ℚ) := by exact_mod_cast hd
  have n1' : (2 : ℚ) ^ log2 q.num.natAbs ≤ (q.num.natAbs : ℚ) := by exact_mod_cast n1
  have n2' : (q.num.natAbs : ℚ) < (2 : ℚ) ^ (log2 q.num.natAbs + 1) := by exact_mod_cast n2
  have d1' : (2 : ℚ) ^ log2 q.den ≤ (q.den : ℚ) := by exact_mod_cast d1
  have d2' : (q.den : ℚ) < (2 : ℚ) ^ (log2 q.den + 1) := by exact_mod_cast d2
  have two : (2 : ℚ) ≠ 0 := by norm_num
  have hup : |q| < (2 : ℚ) ^ ((log2 q.num.natAbs : Int) - (log2 q.den : Int) + 1) := by
    rw [habs, div_lt_iff₀ hdpos]
    have e : (2 : ℚ) ^ ((log2 q.num.natAbs : Int) - (log2 q.den : Int) + 1) * (2 : ℚ) ^ log2 q.den
        = (2 : ℚ) ^ (log2 q.num.natAbs + 1) := by
      rw [← zpow_natCast, ← zpow_natCast, ← zpow_add₀ two]
      congr 1
      push_cast
      ring
    calc (q.num.natAbs : ℚ) < (2 : ℚ) ^ (log2 q.num.natAbs + 1) := n2'
      _ = (2 : ℚ) ^ ((log2 q.num.natAbs : Int) - (log2 q.den : Int) + 1) * (2 : ℚ) ^ log2 q.den := e.symm
      _ ≤ _ := by
        apply mul_le_mul_of_nonneg_left d1'
        positivity
  have hlow : (2 : ℚ) ^ ((log2 q.num.natAbs : Int) - (log2 q.den : Int) - 1) ≤ |q| := by
    rw [habs, le_div_iff₀ hdpos]
    have e : (2 : ℚ) ^ ((log2 q.num.natAbs : Int) - (log2 q.den : Int) - 1) * (2 : ℚ) ^ (log2 q.den + 1)
        = (2 : ℚ) ^ log2 q.num.natAbs := by
      rw [← zpow_natCast, ← zpow_natCast, ← zpow_add₀ two]
      congr 1
      push_cast
      ring
    calc _ ≤ (2 : ℚ) ^ ((log2 q.num.natAbs : Int) - (log2 q.den : Int) - 1) * (2 : ℚ) ^ (log2 q.den + 1) := by
          apply mul_le_mul_of_nonneg_left (le_of_lt d2')
          positivity
      _ = (2 : ℚ) ^ log2 q.num.natAbs := e
      _ ≤ _ := n1'
  unfold binade
  simp only
  split_ifs with hc
  · exact ⟨hc, hup⟩
  · refine ⟨hlow, ?_⟩
    rw [sub_add_cancel]
    exact lt_of_not_le hc

theorem roundTiesEven_le (q : ℚ) (J : Int) (h : q ≤ (J : ℚ)) : roundTiesEven q ≤ J := by
  have hf : ((⌊q⌋ : Int) : ℚ) ≤ q := Int.floor_le q
  have h0 : ⌊q⌋ ≤ J := by
    have : ((⌊q⌋ : Int) : ℚ) ≤ (J : ℚ) := le_trans hf h
    exact_mod_cast this
  have h1 : ¬ q - (⌊q⌋ : ℚ) < 1 / 2 → ⌊q⌋ + 1 ≤ J := by
    intro hn
    have : ((⌊q⌋ : Int) : ℚ) < (J : ℚ) := by linarith
    have : ⌊q⌋ < J := by exact_mod_cast this
    omega
  unfold roundTiesEven
  simp only
  split_ifs with c1 c2 c3
  · exact h0
  · exact h1 c1
  · exact h0
  · exact h1 c1

theorem roundTiesEven_ge (q : ℚ) (J : Int) (h : (J : ℚ) ≤ q) : J ≤ roundTiesEven q := by
  have h0 : J ≤ ⌊q⌋ := Int.le_floor.mpr h
  unfold roundTiesEven
  simp only
  split_ifs <;> omega

theorem roundTiesEven_le_of_lt_half (q : ℚ) (J : Int) (h : q < (J : ℚ) + 1 / 2) :
    roundTiesEven q ≤ J := by
  have hf : ((⌊q⌋ : Int) : ℚ) ≤ q := Int.floor_le q
  have h0 : ⌊q⌋ ≤ J := by
    have : ((⌊q⌋ : Int) : ℚ) < (J : ℚ) + 1 := by linarith
    have : ⌊q⌋ < J + 1 := by exact_mod_cast this
    omega
  have h1 : ¬ q - (⌊q⌋ : ℚ) < 1 / 2 → ⌊q⌋ + 1 ≤ J := by
    intro hn
    have : ((⌊q⌋ : Int) : ℚ) < (J : ℚ) := by linarith
    have : ⌊q⌋ < J := by exact_mod_cast this
    omega
  unfold roundTiesEven
  simp only
  split_ifs with c1 c2 c3
  · exact h0
  · exact h1 c1
  · exact h0
  · exact h1 c1

theorem binade_neg (x : ℚ) : binade (-x) = binade x := by
  simp [binade]

theorem float64Exp_neg (x : ℚ) : float64Exp (-x) = float64Exp x := by
  simp [float64Exp, binade_neg]

theorem float64_zero : float64 0 = 0 := by
  simp [float64]

theorem float64_of_pos (x : ℚ) (hx : 0 < x) :
    float64 x = (roundTiesEven (x / 2 ^ (float64Exp x - 52)) : ℚ) * 2 ^ (float64Exp x - 52) := by
  unfold float64
  rw [if_neg hx.ne', if_neg (not_lt.mpr hx.le)]

/-- Rounding to binary64 commutes with negation. -/
theorem float64_neg (x : ℚ) : float64 (-x) = -float64 x := by
  rcases lt_trichotomy x 0 with h | h | h
  · have h' : 0 < -x := neg_pos.mpr h
    rw [float64_of_pos (-x) h', float64Exp_neg]
    unfold float64
    rw [if_neg h.ne, if_pos h]
    simp
  · subst h; simp [float64_zero]
  · have h' : -x < 0 := neg_neg_of_pos h
    rw [float64_of_pos x h]
    unfold float64
    rw [if_neg h'.ne, if_pos h', float64Exp_neg]
    simp

theorem float64_nonneg (x : ℚ) (hx : 0 ≤ x) : 0 ≤ float64 x := by
  rcases hx.lt_or_eq with h | h
  · rw [float64_of_pos x h]
    have hu : (0 : ℚ) < 2 ^ (float64Exp x - 52) := by positivity
    have : (0 : Int) ≤ roundTiesEven (x / 2 ^ (float64Exp x - 52)) :=
      roundTiesEven_ge _ 0 (by simpa using (div_pos h hu).le)
    have : (0 : ℚ) ≤ (roundTiesEven (x / 2 ^ (float64Exp x - 52)) : ℚ) := by exact_mod_cast this
    positivity
  · rw [← h, float64_zero]

/-- The grid of binary64 values around a positive rational below `2 ^ (t + 53)` is at
least as fine as `2 ^ t`, for `t` from the exponent of the subnormal numbers on. -/
theorem float64Exp_le (x : ℚ) (t : Int) (hx : 0 < x) (hb : x < 2 ^ (t + 53))
    (ht : -1074 ≤ t) : float64Exp x - 52 ≤ t := by
  have hs := (binade_spec x hx.ne').1
  rw [abs_of_pos hx] at hs
  have h2 : (2 : ℚ) ^ binade x < 2 ^ (t + 53) := lt_of_le_of_lt hs hb
  have h3 : binade x < t + 53 := (zpow_lt_zpow_iff_right₀ (by norm_num)).mp h2
  unfold float64Exp
  rcases max_cases (binade x) (-1022) with ⟨e, _⟩ | ⟨e, _⟩ <;> omega

/-- A multiple of `2 ^ t` is a multiple of every finer grid step. -/
theorem grid_multiple (j t e : Int) (he : e ≤ t) :
    ∃ J : Int, (j : ℚ) * 2 ^ t = (J : ℚ) * 2 ^ e := by
  refine ⟨j * 2 ^ (t - e).toNat, ?_⟩
  have hk : ((t - e).toNat : Int) = t - e := Int.toNat_of_nonneg (by omega)
  have e1 : (2 : ℚ) ^ t = 2 ^ (t - e).toNat * 2 ^ e := by
    rw [← zpow_natCast, ← zpow_add₀ (by norm_num : (2 : ℚ) ≠ 0), hk]
    congr 1
    ring
  rw [e1]
  push_cast
  ring

/-- Rounding to binary64 does not cross a value of the grid from below. -/
theorem float64_le (x a : ℚ) (j t : Int) (hx : 0 ≤ x) (hxa : x ≤ a) (ha : a = (j : ℚ) * 2 ^ t)
    (hb : x < 2 ^ (t + 53)) (ht : -1074 ≤ t) : float64 x ≤ a := by
  rcases hx.lt_or_eq with h | h
  · obtain ⟨J, hJ⟩ := grid_multiple j t _ (float64Exp_le x t h hb ht)
    have hu : (0 : ℚ) < 2 ^ (float64Exp x - 52) := by positivity
    rw [float64_of_pos x h, ha, hJ]
    have h1 : x / 2 ^ (float64Exp x - 52) ≤ (J : ℚ) := by
      rw [div_le_iff₀ hu, ← hJ, ← ha]
      exact hxa
    have h2 : (roundTiesEven (x / 2 ^ (float64Exp x - 52)) : ℚ) ≤ (J : ℚ) := by
      exact_mod_cast roundTiesEven_le _ J h1
    exact mul_le_mul_of_nonneg_right h2 hu.le
  · rw [← h, float64_zero]
    rw [← h] at hxa
    exact hxa

/-- Rounding to binary64 does not cross a value of the grid from above. -/
theorem float64_ge (x a : ℚ) (j t : Int) (ha0 : 0 ≤ a) (hax : a ≤ x)
    (ha : a = (j : ℚ) * 2 ^ t) (hb : x < 2 ^ (t + 53)) (ht : -1074 ≤ t) : a ≤ float64 x := by
  rcases (le_trans ha0 hax).lt_or_eq with h | h
  · obtain ⟨J, hJ⟩ := grid_multiple j t _ (float64Exp_le x t h hb ht)
    have hu : (0 : ℚ) < 2 ^ (float64Exp x - 52) := by positivity
    rw [float64_of_pos x h, ha, hJ]
    have h1 : (J : ℚ) ≤ x / 2 ^ (float64Exp x - 52) := by
      rw [le_div_iff₀ hu, ← hJ, ← ha]
      exact hax
    have h2 : (J : ℚ) ≤ (roundTiesEven (x / 2 ^ (float64Exp x - 52)) : ℚ) := by
      exact_mod_cast roundTiesEven_ge _ J h1
    exact mul_le_mul_of_nonneg_right h2 hu.le
  · rw [← h, float64_zero]
    rw [← h] at hax
    exact le_antisymm hax ha0 ▸ le_refl _

/-- Integers of magnitude below `2 ^ 53` are binary64 values. -/
theorem float64_int (n : Int) (h : |n| < 2 ^ 53) : float64 (n : ℚ) = (n : ℚ) := by
  have key : ∀ m : Int, 0 ≤ m → m < 2 ^ 53 → float64 (m : ℚ) = (m : ℚ) := by
    intro m h0 h1
    have h0' : (0 : ℚ) ≤ (m : ℚ) := by exact_mod_cast h0
    have h1' : (m : ℚ) < 2 ^ ((0 : Int) + 53) := by
      have : (m : ℚ) < ((2 ^ 53 : Int) : ℚ) := by exact_mod_cast h1
      norm_num at this ⊢
      exact this
    apply le_antisymm
    · exact float64_le _ _ m 0 h0' (le_refl _) (by simp) h1' (by norm_num)
    · exact float64_ge _ _ m 0 h0' (le_refl _) (by simp) h1' (by norm_num)
  rcases le_or_lt 0 n with hn | hn
  · exact key n hn (by rwa [abs_of_nonneg hn] at h)
  · have := key (-n) (by omega) (by rwa [abs_of_neg hn] at h)
    have e : ((-n : Int) : ℚ) = -(n : ℚ) := by push_cast; ring
    rw [e, float64_neg] at this
    linarith

/-- Rounding to binary64 stays below a value of a coarser grid when the argument is more
than half a grid step below it. -/
theorem float64_lt (x M : ℚ) (j s t : Int) (hx : 0 < x) (hM : M = (j : ℚ) * 2 ^ s)
    (hst : t ≤ s) (hb : x < 2 ^ (t + 53)) (ht : -1074 ≤ t) (hlt : x < M - 2 ^ (t - 1)) :
    float64 x < M := by
  have he := float64Exp_le x t hx hb ht
  obtain ⟨J, hJ⟩ := grid_multiple j s _ (le_trans he hst)
  have hu : (0 : ℚ) < 2 ^ (float64Exp x - 52) := by positivity
  have hhalf : (2 : ℚ) ^ (float64Exp x - 52 - 1) ≤ 2 ^ (t - 1) :=
    zpow_le_zpow_right₀ (by norm_num) (by omega)
  have hsplit : (2 : ℚ) ^ (float64Exp x - 52 - 1) = 2 ^ (float64Exp x - 52) / 2 := by
    rw [zpow_sub_one₀ (by norm_num : (2 : ℚ) ≠ 0)]
    ring
  have h1 : x / 2 ^ (float64Exp x - 52) < ((J - 1 : Int) : ℚ) + 1 / 2 := by
    rw [div_lt_iff₀ hu]
    push_cast
    have : x < (J : ℚ) * 2 ^ (float64Exp x - 52) - 2 ^ (float64Exp x - 52) / 2 := by
      rw [← hJ, ← hM, ← hsplit]
      linarith
    linarith
  have h2 : (roundTiesEven (x / 2 ^ (float64Exp x - 52)) : ℚ) ≤ ((J - 1 : Int) : ℚ) := by
    exact_mod_cast roundTiesEven_le_of_lt_half _ (J - 1) h1
  rw [float64_of_pos x hx, hM, hJ]
  have h3 := mul_le_mul_of_nonneg_right h2 hu.le
  push_cast at h3
  linarith

theorem float64_hourConst : float64 (60 * 60 * 1000000000) = 3600000000000 := by
  have h := float64_int 3600000000000 (by norm_num)
  have e : ((3600000000000 : Int) : ℚ) = 60 * 60 * 1000000000 := by norm_num
  rw [e] at h
  rw [h]
  norm_num

/-- The value of `Duration.Hours` for a non-negative duration. -/
theorem Hours_of_nonneg (d : Int) (h0 : 0 ≤ d) (h1 : d ≤ 2 ^ 63) :
    Hours d = float64 (((d / Hour : Int) : ℚ)
      + float64 (((d % Hour : Int) : ℚ) / (60 * 60 * 1000000000))) := by
  have hH : (0 : Int) ≤ Hour := by decide
  unfold Hours
  simp only
  rw [Int.tdiv_eq_ediv h0 hH, Int.tmod_eq_emod h0 hH, float64_hourConst]
  have hq : |d / Hour| < 2 ^ 53 := by
    have h2 : 0 ≤ d / Hour := Int.ediv_nonneg h0 hH
    rw [abs_of_nonneg h2]
    unfold Hour
    omega
  have hr : |d % Hour| < 2 ^ 53 := by
    have h2 : 0 ≤ d % Hour := Int.emod_nonneg _ (by decide)
    have h3 : d % Hour < Hour := Int.emod_lt_of_pos _ (by decide)
    rw [abs_of_nonneg h2]
    unfold Hour at h3 ⊢
    omega
  rw [float64_int _ hq, float64_int _ hr]
  norm_num

/-- The quotient and the remainder of a non-negative duration by the hour. -/
theorem hour_parts (d : Int) (h0 : 0 ≤ d) (h1 : d ≤ 2 ^ 63) :
    0 ≤ d / Hour ∧ d / Hour ≤ 2562047 ∧ 0 ≤ d % Hour ∧ d % Hour ≤ 3599999999999 := by
  unfold Hour
  omega

/-- The fraction of an hour, as `Duration.Hours` computes it, is between 0 and 1. -/
theorem fraction_bounds (n : Int) (n0 : 0 ≤ n) (n1 : n ≤ 3599999999999) :
    0 ≤ float64 ((n : ℚ) / (60 * 60 * 1000000000)) ∧
    float64 ((n : ℚ) / (60 * 60 * 1000000000)) ≤ 1 := by
  have hn0 : (0 : ℚ) ≤ (n : ℚ) := by exact_mod_cast n0
  have hn1 : (n : ℚ) ≤ 3599999999999 := by exact_mod_cast n1
  have hf0 : (0 : ℚ) ≤ (n : ℚ) / (60 * 60 * 1000000000) := by positivity
  have hf1 : (n : ℚ) / (60 * 60 * 1000000000) ≤ 1 := by
    rw [div_le_iff₀ (by norm_num)]
    linarith
  refine ⟨float64_nonneg _ hf0, ?_⟩
  apply float64_le _ 1 1 0 hf0 hf1 (by norm_num) _ (by norm_num)
  have : (2 : ℚ) ^ ((0 : Int) + 53) = 9007199254740992 := by norm_num
  rw [this]
  linarith

/-- Below half an hour the fraction stays below a half by more than `2 ^ (-42)`. -/
theorem fraction_lt_half (n : Int) (n0 : 0 ≤ n) (n1 : n ≤ 1799999999999) :
    float64 ((n : ℚ) / (60 * 60 * 1000000000)) ≤ 9007199254736895 / 18014398509481984 := by
  have hn0 : (0 : ℚ) ≤ (n : ℚ) := by exact_mod_cast n0
  have hn1 : (n : ℚ) ≤ 1799999999999 := by exact_mod_cast n1
  have hf0 : (0 : ℚ) ≤ (n : ℚ) / (60 * 60 * 1000000000) := by positivity
  have hf1 : (n : ℚ) / (60 * 60 * 1000000000) ≤ 9007199254736895 / 18014398509481984 := by
    rw [div_le_iff₀ (by norm_num)]
    norm_num
    linarith
  apply float64_le _ _ 9007199254736895 (-54) hf0 hf1 (by norm_num) _ (by norm_num)
  have : (2 : ℚ) ^ ((-54 : Int) + 53) = 1 / 2 := by norm_num
  rw [this]
  have : (9007199254736895 : ℚ) / 18014398509481984 < 1 / 2 := by norm_num
  linarith

/-- From half an hour on the fraction is at least a half. -/
theorem fraction_ge_half (n : Int) (n0 : 1800000000000 ≤ n) (n1 : n ≤ 3599999999999) :
    1 / 2 ≤ float64 ((n : ℚ) / (60 * 60 * 1000000000)) := by
  have hn0 : (1800000000000 : ℚ) ≤ (n : ℚ) := by exact_mod_cast n0
  have hn1 : (n : ℚ) ≤ 3599999999999 := by exact_mod_cast n1
  have hf0 : (1 : ℚ) / 2 ≤ (n : ℚ) / (60 * 60 * 1000000000) := by
    rw [le_div_iff₀ (by norm_num)]
    norm_num
    linarith
  have hf1 : (n : ℚ) / (60 * 60 * 1000000000) ≤ 1 := by
    rw [div_le_iff₀ (by norm_num)]
    linarith
  apply float64_ge _ _ 1 (-1) (by norm_num) hf0 (by norm_num) _ (by norm_num)
  have : (2 : ℚ) ^ ((-1 : Int) + 53) = 4503599627370496 := by norm_num
  rw [this]
  linarith

/-- `Duration.Hours` of a non-negative duration is at least its whole hours. -/
theorem Hours_ge (d : Int) (h0 : 0 ≤ d) (h1 : d ≤ 2 ^ 63) :
    ((d / Hour : Int) : ℚ) ≤ Hours d := by
  obtain ⟨a0, a1, n0, n1⟩ := hour_parts d h0 h1
  obtain ⟨y0, y1⟩ := fraction_bounds _ n0 n1
  rw [Hours_of_nonneg d h0 h1]
  have ha0 : (0 : ℚ) ≤ ((d / Hour : Int) : ℚ) := by exact_mod_cast a0
  have ha1 : ((d / Hour : Int) : ℚ) ≤ 2562047 := by exact_mod_cast a1
  apply float64_ge _ _ (d / Hour) 0 ha0 (by linarith) (by simp) _ (by norm_num)
  have : (2 : ℚ) ^ ((0 : Int) + 53) = 9007199254740992 := by norm_num
  rw [this]
  linarith

/-- `Duration.Hours` of a non-negative duration is at most its whole hours and one. -/
theorem Hours_le (d : Int) (h0 : 0 ≤ d) (h1 : d ≤ 2 ^ 63) :
    Hours d ≤ ((d / Hour : Int) : ℚ) + 1 := by
  obtain ⟨a0, a1, n0, n1⟩ := hour_parts d h0 h1
  obtain ⟨y0, y1⟩ := fraction_bounds _ n0 n1
  rw [Hours_of_nonneg d h0 h1]
  have ha0 : (0 : ℚ) ≤ ((d / Hour : Int) : ℚ) := by exact_mod_cast a0
  have ha1 : ((d / Hour : Int) : ℚ) ≤ 2562047 := by exact_mod_cast a1
  apply float64_le _ _ (d / Hour + 1) 0 (by linarith) (by linarith) (by push_cast; simp) _
    (by norm_num)
  have : (2 : ℚ) ^ ((0 : Int) + 53) = 9007199254740992 := by norm_num
  rw [this]
  linarith

/-- From half an hour past the hour on, `Duration.Hours` is at least the half. -/
theorem Hours_ge_half (d : Int) (h0 : 0 ≤ d) (h1 : d ≤ 2 ^ 63)
    (hn : 1800000000000 ≤ d % Hour) : ((d / Hour : Int) : ℚ) + 1 / 2 ≤ Hours d := by
  obtain ⟨a0, a1, n0, n1⟩ := hour_parts d h0 h1
  obtain ⟨y0, y1⟩ := fraction_bounds _ n0 n1
  have y2 := fraction_ge_half _ hn n1
  rw [Hours_of_nonneg d h0 h1]
  have ha0 : (0 : ℚ) ≤ ((d / Hour : Int) : ℚ) := by exact_mod_cast a0
  have ha1 : ((d / Hour : Int) : ℚ) ≤ 2562047 := by exact_mod_cast a1
  apply float64_ge _ _ (2 * (d / Hour) + 1) (-1) (by linarith) (by linarith)
    (by push_cast; norm_num; ring) _ (by norm_num)
  have : (2 : ℚ) ^ ((-1 : Int) + 53) = 4503599627370496 := by norm_num
  rw [this]
  linarith

/-- Before half an hour past the hour and below 4096 hours, `Duration.Hours` stays
below the half. -/
theorem Hours_lt_half (d : Int) (h0 : 0 ≤ d) (h1 : d ≤ 2 ^ 63)
    (hn : d % Hour ≤ 1799999999999) (hh : d / Hour < 4096) :
    Hours d < ((d / Hour : Int) : ℚ) + 1 / 2 := by
  obtain ⟨a0, a1, n0, n1⟩ := hour_parts d h0 h1
  obtain ⟨y0, y1⟩ := fraction_bounds _ n0 n1
  have y2 := fraction_lt_half _ n0 hn
  rw [Hours_of_nonneg d h0 h1]
  have ha0 : (0 : ℚ) ≤ ((d / Hour : Int) : ℚ) := by exact_mod_cast a0
  have ha1 : ((d / Hour : Int) : ℚ) ≤ 4095 := by
    have : d / Hour ≤ 4095 := by omega
    exact_mod_cast this
  rcases (add_nonneg ha0 y0).lt_or_eq with hx | hx
  · apply float64_lt _ _ (2 * (d / Hour) + 1) (-1) (-41) hx (by push_cast; norm_num; ring)
      (by norm_num) _ (by norm_num)
    · have : (2 : ℚ) ^ ((-41 : Int) - 1) = 1 / 4398046511104 := by norm_num
      rw [this]
      have : (9007199254736895 : ℚ) / 18014398509481984 < 1 / 2 - 1 / 4398046511104 := by
        norm_num
      linarith
    · have : (2 : ℚ) ^ ((-41 : Int) + 53) = 4096 := by norm_num
      rw [this]
      have : (9007199254736895 : ℚ) / 18014398509481984 < 1 / 2 := by norm_num
      linarith
  · rw [← hx, float64_zero]
    linarith

theorem round_lo (k : Int) (hk : 0 ≤ k) (x : ℚ) (h1 : (k : ℚ) ≤ x) (h2 : x < (k : ℚ) + 1 / 2) :
    toInt64 (mathRound x) = k := by
  have hk' : (0 : ℚ) ≤ (k : ℚ) := by exact_mod_cast hk
  have hx : ¬ x < 0 := not_lt.mpr (le_trans hk' h1)
  have hfl : ⌊x + 1 / 2⌋ = k := by
    rw [Int.floor_eq_iff]
    constructor <;> linarith
  unfold mathRound
  rw [if_neg hx, hfl]
  unfold toInt64
  rw [if_neg (not_lt.mpr hk'), Int.floor_intCast]

theorem round_hi (k : Int) (hk : 0 ≤ k) (x : ℚ) (h1 : (k : ℚ) + 1 / 2 ≤ x)
    (h2 : x ≤ (k : ℚ) + 1) : toInt64 (mathRound x) = k + 1 := by
  have hk' : (0 : ℚ) ≤ (k : ℚ) := by exact_mod_cast hk
  have hx : ¬ x < 0 := not_lt.mpr (by linarith)
  have hfl : ⌊x + 1 / 2⌋ = k + 1 := by
    rw [Int.floor_eq_iff]
    push_cast
    constructor <;> linarith
  unfold mathRound
  rw [if_neg hx, hfl]
  unfold toInt64
  have : ¬ (((k + 1 : Int)) : ℚ) < 0 := by
    push_cast
    exact not_lt.mpr (by linarith)
  rw [if_neg this, Int.floor_intCast]

theorem round_between (k : Int) (hk : 0 ≤ k) (x : ℚ) (h1 : (k : ℚ) ≤ x)
    (h2 : x ≤ (k : ℚ) + 1) : k ≤ toInt64 (mathRound x) ∧ toInt64 (mathRound x) ≤ k + 1 := by
  rcases lt_or_le x ((k : ℚ) + 1 / 2) with h | h
  · rw [round_lo k hk x h1 h]; omega
  · rw [round_hi k hk x h h2]; omega

theorem round_neg (x : ℚ) : toInt64 (mathRound (-x)) = -toInt64 (mathRound x) := by
  have key : ∀ y : ℚ, 0 < y → toInt64 (mathRound (-y)) = -toInt64 (mathRound y) := by
    intro y hy
    have h1 : -y < 0 := neg_neg_of_pos hy
    have h2 : ¬ y < 0 := not_lt.mpr hy.le
    have h3 : (0 : Int) ≤ ⌊y + 1 / 2⌋ := Int.floor_nonneg.mpr (by linarith)
    have h3' : (0 : ℚ) ≤ ((⌊y + 1 / 2⌋ : Int) : ℚ) := by exact_mod_cast h3
    unfold mathRound
    rw [if_pos h1, if_neg h2, neg_neg]
    unfold toInt64
    rw [if_neg (not_lt.mpr h3')]
    rcases h3'.lt_or_eq with h4 | h4
    · rw [if_pos (neg_neg_of_pos h4), neg_neg]
    · rw [← h4]
      simp
  rcases lt_trichotomy x 0 with h | h | h
  · have := key (-x) (neg_pos.mpr h)
    rw [neg_neg] at this
    rw [this, neg_neg]
  · subst h
    norm_num [mathRound, toInt64]
  · exact key x h

theorem neg_tmod_hour (d : Int) : (-d).tmod Hour = -(d.tmod Hour) := by
  have h1 := Int.tmod_add_tdiv (-d) Hour
  have h2 := Int.tmod_add_tdiv d Hour
  rw [Int.neg_tdiv] at h1
  have h3 : Hour * -(d.tdiv Hour) = -(Hour * d.tdiv Hour) := by ring
  rw [h3] at h1
  omega

/-- `Duration.Hours` commutes with negation. -/
theorem Hours_neg (d : Int) : Hours (-d) = -Hours d := by
  unfold Hours
  simp only
  rw [Int.neg_tdiv, neg_tmod_hour]
  simp only [Int.cast_neg, float64_neg, neg_div, ← neg_add]

theorem spec_lo (d : Int) (h0 : 0 ≤ d) (hn : d % Hour ≤ 1799999999999) :
    specRoundedHours d = d / Hour := by
  have hd : (d : ℚ) = 3600000000000 * ((d / Hour : Int) : ℚ) + ((d % Hour : Int) : ℚ) := by
    have := Int.ediv_add_emod d Hour
    have e : (d : ℚ) = ((Hour * (d / Hour) + d % Hour : Int) : ℚ) := by rw [this]
    rw [e]
    push_cast
    simp [Hour]
  have n0 : (0 : ℚ) ≤ ((d % Hour : Int) : ℚ) := by
    exact_mod_cast Int.emod_nonneg d (by decide)
  have n1 : ((d % Hour : Int) : ℚ) ≤ 1799999999999 := by exact_mod_cast hn
  have a0 : (0 : ℚ) ≤ ((d / Hour : Int) : ℚ) := by
    exact_mod_cast Int.ediv_nonneg h0 (by decide)
  have hq : (d : ℚ) / 3600000000000
      = ((d / Hour : Int) : ℚ) + ((d % Hour : Int) : ℚ) / 3600000000000 := by
    rw [hd]; field_simp; ring
  have f0 : (0 : ℚ) ≤ ((d % Hour : Int) : ℚ) / 3600000000000 := by positivity
  have f1 : ((d % Hour : Int) : ℚ) / 3600000000000 < 1 / 2 := by
    rw [div_lt_iff₀ (by norm_num)]
    norm_num
    linarith
  unfold specRoundedHours
  simp only
  rw [hq, if_neg (not_lt.mpr (by linarith)), Int.floor_eq_iff]
  constructor <;> linarith

theorem spec_hi (d : Int) (h0 : 0 ≤ d) (hn : 1800000000000 ≤ d % Hour) :
    specRoundedHours d = d / Hour + 1 := by
  have hd : (d : ℚ) = 3600000000000 * ((d / Hour : Int) : ℚ) + ((d % Hour : Int) : ℚ) := by
    have := Int.ediv_add_emod d Hour
    have e : (d : ℚ) = ((Hour * (d / Hour) + d % Hour : Int) : ℚ) := by rw [this]
    rw [e]
    push_cast
    simp [Hour]
  have n0 : (1800000000000 : ℚ) ≤ ((d % Hour : Int) : ℚ) := by exact_mod_cast hn
  have n1 : ((d % Hour : Int) : ℚ) < 3600000000000 := by
    exact_mod_cast Int.emod_lt_of_pos d (by decide : (0 : Int) < Hour)
  have a0 : (0 : ℚ) ≤ ((d / Hour : Int) : ℚ) := by
    exact_mod_cast Int.ediv_nonneg h0 (by decide)
  have hq : (d : ℚ) / 3600000000000
      = ((d / Hour : Int) : ℚ) + ((d % Hour : Int) : ℚ) / 3600000000000 := by
    rw [hd]; field_simp; ring
  have f0 : (1 : ℚ) / 2 ≤ ((d % Hour : Int) : ℚ) / 3600000000000 := by
    rw [le_div_iff₀ (by norm_num)]
    norm_num
    linarith
  have f1 : ((d % Hour : Int) : ℚ) / 3600000000000 < 1 := by
    rw [div_lt_iff₀ (by norm_num)]
    linarith
  unfold specRoundedHours
  simp only
  rw [hq, if_neg (not_lt.mpr (by linarith)), Int.floor_eq_iff]
  push_cast
  constructor <;> linarith

theorem spec_neg (d : Int) : specRoundedHours (-d) = -specRoundedHours d := by
  have key : ∀ e : Int, 0 < e → specRoundedHours (-e) = -specRoundedHours e := by
    intro e he
    have he' : (0 : ℚ) < (e : ℚ) := by exact_mod_cast he
    have h1 : ((-e : Int) : ℚ) / 3600000000000 < 0 := by
      push_cast
      apply div_neg_of_neg_of_pos <;> linarith
    have h2 : ¬ (e : ℚ) / 3600000000000 < 0 := not_lt.mpr (by positivity)
    unfold specRoundedHours
    simp only
    rw [if_pos h1, if_neg h2]
    push_cast
    rw [neg_div, neg_neg]
  rcases lt_trichotomy d 0 with h | h | h
  · have := key (-d) (by omega)
    rw [neg_neg] at this
    rw [this, neg_neg]
  · subst h
    norm_num [specRoundedHours]
  · exact key d h

/-- Below 4096 hours in magnitude, the hour count that `getDuration` computes is the
exactly rounded number of hours. -/
theorem count_eq_spec (d : Int) (h : |d| < 4096 * Hour) :
    toInt64 (mathRound (Hours d)) = specRoundedHours d := by
  have key : ∀ e : Int, 0 ≤ e → e < 4096 * Hour →
      toInt64 (mathRound (Hours e)) = specRoundedHours e := by
    intro e h0 hlt
    have h1 : e ≤ 2 ^ 63 := by
      unfold Hour at hlt
      omega
    have hh : e / Hour < 4096 := by
      unfold Hour at hlt ⊢
      omega
    have a0 : 0 ≤ e / Hour := Int.ediv_nonneg h0 (by decide)
    rcases le_or_lt (e % Hour) 1799999999999 with hn | hn
    · rw [spec_lo e h0 hn]
      exact round_lo _ a0 _ (Hours_ge e h0 h1) (Hours_lt_half e h0 h1 hn hh)
    · have hn' : 1800000000000 ≤ e % Hour := by omega
      rw [spec_hi e h0 hn']
      exact round_hi _ a0 _ (Hours_ge_half e h0 h1 hn') (Hours_le e h0 h1)
  rcases le_or_lt 0 d with hd | hd
  · exact key d hd (by rwa [abs_of_nonneg hd] at h)
  · have := key (-d) (by omega) (by rwa [abs_of_neg hd] at h)
    rw [Hours_neg, round_neg, spec_neg] at this
    omega

/-- The hour count of a non-negative duration is not negative. -/
theorem count_nonneg (d : Int) (h0 : 0 ≤ d) (h1 : d ≤ 2 ^ 63) :
    0 ≤ toInt64 (mathRound (Hours d)) := by
  have a0 : 0 ≤ d / Hour := Int.ediv_nonneg h0 (by decide)
  have := (round_between _ a0 _ (Hours_ge d h0 h1) (Hours_le d h0 h1)).1
  omega

/-- The hour count of a duration of half an hour or more is positive. -/
theorem count_pos (d : Int) (h0 : 1800000000000 ≤ d) (h1 : d ≤ 2 ^ 63) :
    1 ≤ toInt64 (mathRound (Hours d)) := by
  have hd : 0 ≤ d := by omega
  have a0 : 0 ≤ d / Hour := Int.ediv_nonneg hd (by decide)
  rcases le_or_lt 1 (d / Hour) with hq | hq
  · have := (round_between _ a0 _ (Hours_ge d hd h1) (Hours_le d hd h1)).1
    omega
  · have hn : 1800000000000 ≤ d % Hour := by
      unfold Hour at hq a0 ⊢
      omega
    rw [round_hi _ a0 _ (Hours_ge_half d hd h1 hn) (Hours_le d hd h1)]
    omega

theorem since_bounds (now t : Time) :
    -(2 ^ 63) ≤ since now t ∧ since now t ≤ 2 ^ 63 := by
  unfold since maxDuration minDuration
  simp only
  split_ifs <;> omega

theorem since_exact (now t : Time) (h0 : -(2 ^ 63) ≤ now.nanos - t.nanos)
    (h1 : now.nanos - t.nanos < 2 ^ 63) : since now t = now.nanos - t.nanos := by
  unfold since maxDuration minDuration
  simp only
  split_ifs <;> omega

theorem toString_neg_natCast (n : Nat) (h : 0 < n) :
    toString (-(n : Int)) = "-" ++ toString n := by
  cases n with
  | zero => exact absurd h (by decide)
  | succ k => rfl

theorem roundTiesEven_ge_of_even (q : ℚ) (J : Int) (hJ : J % 2 = 0)
    (h : (J : ℚ) - 1 / 2 ≤ q) : J ≤ roundTiesEven q := by
  have hf : q < ((⌊q⌋ : Int) : ℚ) + 1 := Int.lt_floor_add_one q
  have h0 : J - 1 ≤ ⌊q⌋ := by
    have : ((J - 1 : Int) : ℚ) < ((⌊q⌋ : Int) : ℚ) + 1 := by push_cast; linarith
    have : J - 1 < ⌊q⌋ + 1 := by exact_mod_cast this
    omega
  rcases (show J - 1 = ⌊q⌋ ∨ J ≤ ⌊q⌋ by omega) with he | he
  · have hfr : ¬ q - ((⌊q⌋ : Int) : ℚ) < 1 / 2 := by
      rw [← he]
      push_cast
      linarith
    have hodd : ¬ ⌊q⌋ % 2 = 0 := by omega
    unfold roundTiesEven
    simp only
    rw [if_neg hfr]
    split_ifs <;> omega
  · have := roundTiesEven_ge q ⌊q⌋ (Int.floor_le q)
    omega

/-- The binade of a positive rational is the exponent of the powers of two that enclose it. -/
theorem binade_eq (x : ℚ) (e : Int) (hx : 0 < x) (h1 : 2 ^ e ≤ x) (h2 : x < 2 ^ (e + 1)) :
    binade x = e := by
  obtain ⟨s1, s2⟩ := binade_spec x hx.ne'
  rw [abs_of_pos hx] at s1 s2
  have a1 : (2 : ℚ) ^ binade x < 2 ^ (e + 1) := lt_of_le_of_lt s1 h2
  have a2 : (2 : ℚ) ^ e < 2 ^ (binade x + 1) := lt_of_le_of_lt h1 s2
  have b1 := (zpow_lt_zpow_iff_right₀ (by norm_num : (1 : ℚ) < 2)).mp a1
  have b2 := (zpow_lt_zpow_iff_right₀ (by norm_num : (1 : ℚ) < 2)).mp a2
  omega

/-- A multiple of `2 ^ t` is an even multiple of every strictly finer grid step. -/
theorem grid_multiple_even (j t e : Int) (he : e < t) :
    ∃ J : Int, J % 2 = 0 ∧ (j : ℚ) * 2 ^ t = (J : ℚ) * 2 ^ e := by
  obtain ⟨J, hJ⟩ := grid_multiple j (t - 1) e (by omega)
  refine ⟨2 * J, by omega, ?_⟩
  have e1 : (2 : ℚ) ^ t = 2 * 2 ^ (t - 1) := by
    rw [zpow_sub_one₀ (by norm_num : (2 : ℚ) ≠ 0)]
    field_simp
  rw [e1]
  push_cast
  linarith

/-- Rounding to binary64 reaches a value of a coarser grid from half a grid step below it
on: the tie goes to the even multiple. -/
theorem float64_ge_mid (x M : ℚ) (j s e : Int) (hx : 0 < x) (h1 : 2 ^ e ≤ x)
    (h2 : x < 2 ^ (e + 1)) (hmin : -1022 ≤ e) (hM : M = (j : ℚ) * 2 ^ s) (hs : e - 52 < s)
    (h : M - 2 ^ (e - 52 - 1) ≤ x) : M ≤ float64 x := by
  have hexp : float64Exp x = e := by
    unfold float64Exp
    rw [binade_eq x e hx h1 h2]
    exact max_eq_left hmin
  obtain ⟨J, hJ2, hJ⟩ := grid_multiple_even j s (e - 52) hs
  have hu : (0 : ℚ) < 2 ^ (e - 52) := by positivity
  have hsplit : (2 : ℚ) ^ (e - 52 - 1) = 2 ^ (e - 52) / 2 := by
    rw [zpow_sub_one₀ (by norm_num : (2 : ℚ) ≠ 0)]
    ring
  have hq : (J : ℚ) - 1 / 2 ≤ x / 2 ^ (e - 52) := by
    rw [le_div_iff₀ hu]
    have : (J : ℚ) * 2 ^ (e - 52) - 2 ^ (e - 52) / 2 ≤ x := by
      rw [← hJ, ← hM, ← hsplit]
      exact h
    linarith
  have hr : (J : ℚ) ≤ (roundTiesEven (x / 2 ^ (e - 52)) : ℚ) := by
    exact_mod_cast roundTiesEven_ge_of_even _ J hJ2 hq
  rw [float64_of_pos x hx, hexp, hM, hJ]
  exact mul_le_mul_of_nonneg_right hr hu.le

theorem zpow_natCast_sub (k m : Nat) : (2 : ℚ) ^ ((k : Int) - (m : Int)) = 2 ^ k / 2 ^ m := by
  rw [zpow_sub₀ (by norm_num : (2 : ℚ) ≠ 0), zpow_natCast, zpow_natCast]

/-- The whole hours of a duration of an hour or more lie in the binade of their `log2`. -/
theorem hours_binade (h : Int) (h1 : 1 ≤ h) (h2 : h ≤ 2562047) :
    (2 : Int) ^ log2 h.toNat ≤ h ∧ h < 2 ^ (log2 h.toNat + 1) ∧ log2 h.toNat ≤ 21 := by
  obtain ⟨a, b⟩ := log2_spec h.toNat (by omega)
  have hc : (h.toNat : Int) = h := Int.toNat_of_nonneg (by omega)
  have a' : ((2 ^ log2 h.toNat : Nat) : Int) ≤ (h.toNat : Int) := by exact_mod_cast a
  have b' : (h.toNat : Int) < ((2 ^ (log2 h.toNat + 1) : Nat) : Int) := by exact_mod_cast b
  rw [hc] at a' b'
  push_cast at a' b'
  refine ⟨a', b', ?_⟩
  by_contra hk
  have : (2 : Nat) ^ 22 ≤ 2 ^ log2 h.toNat := Nat.pow_le_pow_right (by norm_num) (by omega)
  have : (2 : Nat) ^ 22 ≤ h.toNat := le_trans this a
  omega

/-- Inside the band, `Duration.Hours` reaches the half. -/
theorem Hours_band_up (d : Int) (h0 : 0 ≤ d) (h1 : d ≤ 2 ^ 63) (hh : 1 ≤ d / Hour)
    (hn : d % Hour ≤ 1799999999999)
    (hb : 2 ^ 54 * (Hour - 2 * (d % Hour))
      ≤ Hour * (2 ^ (log2 (d / Hour).toNat + 2) + 1)) :
    ((d / Hour : Int) : ℚ) + 1 / 2 ≤ Hours d := by
  obtain ⟨a0, a1, n0, n1⟩ := hour_parts d h0 h1
  obtain ⟨y0, y1⟩ := fraction_bounds _ n0 n1
  obtain ⟨k1, k2, k3⟩ := hours_binade _ hh a1
  rw [Hours_of_nonneg d h0 h1]
  generalize log2 (d / Hour).toNat = k at hb k1 k2 k3
  generalize d / Hour = h at *
  generalize d % Hour = n at *
  have hP0 : (1 : ℚ) ≤ (2 : ℚ) ^ k := one_le_pow₀ (by norm_num)
  have hP1 : (2 : ℚ) ^ k ≤ 2 ^ 21 := pow_le_pow_right₀ (by norm_num) k3
  have q1 : (2 : ℚ) ^ k ≤ (h : ℚ) := by exact_mod_cast k1
  have q2 : (h : ℚ) + 1 ≤ 2 * (2 : ℚ) ^ k := by
    have : h + 1 ≤ 2 ^ (k + 1) := by omega
    have : ((h + 1 : Int) : ℚ) ≤ (((2 : Int) ^ (k + 1) : Int) : ℚ) := by exact_mod_cast this
    push_cast at this
    rw [pow_succ] at this
    linarith
  have hn0 : (0 : ℚ) ≤ (n : ℚ) := by exact_mod_cast n0
  have hn1 : (n : ℚ) ≤ 1799999999999 := by exact_mod_cast hn
  have hbq : (2 : ℚ) ^ 54 * (3600000000000 - 2 * (n : ℚ))
      ≤ 3600000000000 * (4 * (2 : ℚ) ^ k + 1) := by
    have : ((2 ^ 54 * (Hour - 2 * n) : Int) : ℚ)
        ≤ ((Hour * (2 ^ (k + 2) + 1) : Int) : ℚ) := by exact_mod_cast hb
    unfold Hour at this
    push_cast at this
    rw [pow_add] at this
    linarith
  -- the fraction reaches `1 / 2 - 2 ^ (k - 53)`
  have hf : (1 : ℚ) / 2 - (2 : ℚ) ^ k / 2 ^ 53 - 1 / 2 ^ 55
      ≤ (n : ℚ) / (60 * 60 * 1000000000) := by
    rw [le_div_iff₀ (by norm_num)]
    norm_num at hbq ⊢
    linarith
  have hfhalf : (n : ℚ) / (60 * 60 * 1000000000) ≤ 1 / 2 := by
    rw [div_le_iff₀ (by norm_num)]
    norm_num
    linarith
  have hquarter : (1 : ℚ) / 4 ≤ (n : ℚ) / (60 * 60 * 1000000000) := by
    have h53 : (2 : ℚ) ^ k / 2 ^ 53 ≤ 2 ^ 21 / 2 ^ 53 :=
      div_le_div_of_nonneg_right hP1 (by positivity)
    have c1 : (2 : ℚ) ^ 21 / 2 ^ 53 + 1 / 2 ^ 55 ≤ 1 / 4 := by norm_num
    linarith
  have hy : (1 : ℚ) / 2 - (2 : ℚ) ^ k / 2 ^ 53 ≤ float64 ((n : ℚ) / (60 * 60 * 1000000000)) := by
    have c2 : (2 : ℚ) ^ (-2 : Int) = 1 / 4 := by norm_num
    have c3 : (2 : ℚ) ^ ((-2 : Int) + 1) = 1 / 2 := by norm_num
    have c4 : (2 : ℚ) ^ ((-2 : Int) - 52 - 1) = 1 / 2 ^ 55 := by norm_num
    have c5 : (1 : ℚ) / 2 - (2 : ℚ) ^ k / 2 ^ 53
        = (((2 ^ 52 - 2 ^ k : Int)) : ℚ) * (2 : ℚ) ^ (-53 : Int) := by
      push_cast
      norm_num
      ring
    have hlt : (n : ℚ) / (60 * 60 * 1000000000) < 1 / 2 := by
      rw [div_lt_iff₀ (by norm_num)]
      norm_num
      linarith
    apply float64_ge_mid _ _ (2 ^ 52 - 2 ^ k) (-53) (-2)
    · linarith
    · rw [c2]; exact hquarter
    · rw [c3]; exact hlt
    · norm_num
    · exact c5
    · norm_num
    · rw [c4]; exact hf
  have hyhalf : float64 ((n : ℚ) / (60 * 60 * 1000000000)) ≤ 1 / 2 := by
    apply float64_le _ _ 1 (-1) (by positivity) hfhalf (by norm_num) _ (by norm_num)
    norm_num
    linarith
  have z1 : (2 : ℚ) ^ ((k : Int) - 52 - 1) = (2 : ℚ) ^ k / 2 ^ 53 := by
    have e : (k : Int) - 52 - 1 = (k : Int) - ((53 : Nat) : Int) := by push_cast; ring
    rw [e, zpow_natCast_sub]
  have z2 : (2 : ℚ) ^ ((k : Int) + 1) = 2 * (2 : ℚ) ^ k := by
    rw [zpow_add_one₀ (by norm_num : (2 : ℚ) ≠ 0), zpow_natCast]
    ring
  have z0 : (2 : ℚ) ^ (k : Int) = (2 : ℚ) ^ k := zpow_natCast _ _
  apply float64_ge_mid _ _ (2 * h + 1) (-1) (k : Int)
  · linarith
  · rw [z0]; linarith
  · rw [z2]; linarith
  · omega
  · push_cast
    norm_num
    ring
  · omega
  · rw [z1]; linarith

/-- Outside the band, `Duration.Hours` stays below the half. -/
theorem Hours_band_down (d : Int) (h0 : 0 ≤ d) (h1 : d ≤ 2 ^ 63) (hh : 1 ≤ d / Hour)
    (hn : d % Hour ≤ 1799999999999)
    (hb : ¬ 2 ^ 54 * (Hour - 2 * (d % Hour))
      ≤ Hour * (2 ^ (log2 (d / Hour).toNat + 2) + 1)) :
    Hours d < ((d / Hour : Int) : ℚ) + 1 / 2 := by
  obtain ⟨a0, a1, n0, n1⟩ := hour_parts d h0 h1
  obtain ⟨y0, y1⟩ := fraction_bounds _ n0 n1
  obtain ⟨k1, k2, k3⟩ := hours_binade _ hh a1
  rw [Hours_of_nonneg d h0 h1]
  generalize log2 (d / Hour).toNat = k at hb k1 k2 k3
  generalize d / Hour = h at *
  generalize d % Hour = n at *
  have hP0 : (1 : ℚ) ≤ (2 : ℚ) ^ k := one_le_pow₀ (by norm_num)
  have hP1 : (2 : ℚ) ^ k ≤ 2 ^ 21 := pow_le_pow_right₀ (by norm_num) k3
  have q1 : (2 : ℚ) ^ k ≤ (h : ℚ) := by exact_mod_cast k1
  have q2 : (h : ℚ) + 1 ≤ 2 * (2 : ℚ) ^ k := by
    have : h + 1 ≤ 2 ^ (k + 1) := by omega
    have : ((h + 1 : Int) : ℚ) ≤ (((2 : Int) ^ (k + 1) : Int) : ℚ) := by exact_mod_cast this
    push_cast at this
    rw [pow_succ] at this
    linarith
  have hn0 : (0 : ℚ) ≤ (n : ℚ) := by exact_mod_cast n0
  have hn1 : (n : ℚ) ≤ 1799999999999 := by exact_mod_cast hn
  have hbq : 3600000000000 * (4 * (2 : ℚ) ^ k + 1)
      < (2 : ℚ) ^ 54 * (3600000000000 - 2 * (n : ℚ)) := by
    have hb' := not_le.mp hb
    have : ((Hour * (2 ^ (k + 2) + 1) : Int) : ℚ)
        < ((2 ^ 54 * (Hour - 2 * n) : Int) : ℚ) := by exact_mod_cast hb'
    unfold Hour at this
    push_cast at this
    rw [pow_add] at this
    linarith
  have hf : (n : ℚ) / (60 * 60 * 1000000000)
      < 1 / 2 - (2 : ℚ) ^ k / 2 ^ 53 - 1 / 2 ^ 55 := by
    rw [div_lt_iff₀ (by norm_num)]
    norm_num at hbq ⊢
    linarith
  have hy : float64 ((n : ℚ) / (60 * 60 * 1000000000)) < 1 / 2 - (2 : ℚ) ^ k / 2 ^ 53 := by
    rcases (show (0 : ℚ) ≤ (n : ℚ) / (60 * 60 * 1000000000) by positivity).lt_or_eq with hp | hp
    · apply float64_lt _ _ (2 ^ 52 - 2 ^ k) (-53) (-54) hp
      · push_cast
        norm_num
        ring
      · norm_num
      · norm_num at hf hP0 ⊢
        linarith
      · norm_num
      · norm_num at hf ⊢
        linarith
    · rw [← hp, float64_zero]
      norm_num at hP1 ⊢
      linarith
  have z1 : (2 : ℚ) ^ ((k : Int) - 52 - 1) = (2 : ℚ) ^ k / 2 ^ 53 := by
    have e : (k : Int) - 52 - 1 = (k : Int) - ((53 : Nat) : Int) := by push_cast; ring
    rw [e, zpow_natCast_sub]
  have z3 : (2 : ℚ) ^ ((k : Int) - 52 + 53) = 2 * (2 : ℚ) ^ k := by
    have e : (k : Int) - 52 + 53 = (k : Int) + 1 := by ring
    rw [e, zpow_add_one₀ (by norm_num : (2 : ℚ) ≠ 0), zpow_natCast]
    ring
  have hx : (0 : ℚ) < (h : ℚ) + float64 ((n : ℚ) / (60 * 60 * 1000000000)) := by linarith
  apply float64_lt _ _ (2 * h + 1) (-1) ((k : Int) - 52) hx
  · push_cast
    norm_num
    ring
  · omega
  · rw [z3]; linarith
  · omega
  · rw [z1]; linarith

theorem inRoundUpBand_iff (a : Int) :
    inRoundUpBand a = true ↔
      2 * (a % Hour) < Hour ∧
        2 ^ 54 * (Hour - 2 * (a % Hour)) ≤ Hour * (2 ^ (log2 (a / Hour).toNat + 2) + 1) := by
  simp [inRoundUpBand]

/-- The band lies within 838 ns below the half hour and starts at 4096 hours. -/
theorem band_bounds (a : Int) (h0 : 0 ≤ a) (h1 : a ≤ 2 ^ 63) (hb : inRoundUpBand a = true) :
    4096 ≤ a / Hour ∧ Hour - 1676 ≤ 2 * (a % Hour) ∧ 2 * (a % Hour) < Hour := by
  obtain ⟨b1, b2⟩ := (inRoundUpBand_iff a).mp hb
  obtain ⟨a0, a1, n0, n1⟩ := hour_parts a h0 h1
  rcases (show a / Hour = 0 ∨ 1 ≤ a / Hour by omega) with hz | hp
  · rw [hz] at b2
    have : log2 (0 : Int).toNat = 0 := rfl
    rw [this] at b2
    unfold Hour at b1 b2
    omega
  · obtain ⟨k1, k2, k3⟩ := hours_binade _ hp a1
    generalize log2 (a / Hour).toNat = k at b2 k1 k2 k3
    have hP : (2 : Int) ^ k ≤ 2 ^ 21 := pow_le_pow_right₀ (by norm_num) k3
    have e4 : (2 : Int) ^ (k + 2) = 4 * 2 ^ k := by rw [pow_add]; ring
    rw [e4] at b2
    refine ⟨?_, ?_, b1⟩
    · by_contra hlt
      have hk : k ≤ 11 := by
        by_contra hk
        have : (2 : Int) ^ 12 ≤ 2 ^ k := pow_le_pow_right₀ (by norm_num) (by omega)
        omega
      have hP' : (2 : Int) ^ k ≤ 2 ^ 11 := pow_le_pow_right₀ (by norm_num) hk
      unfold Hour at b1 b2
      omega
    · unfold Hour at b1 b2 ⊢
      omega

/-- The hour count of a non-negative duration: the exactly rounded hours, and one more
inside the band. -/
theorem count_exact_nonneg (d : Int) (h0 : 0 ≤ d) (h1 : d ≤ 2 ^ 63) :
    toInt64 (mathRound (Hours d))
      = specRoundedHours d + (if inRoundUpBand d = true then 1 else 0) := by
  have a0 : 0 ≤ d / Hour := Int.ediv_nonneg h0 (by decide)
  rcases le_or_lt (d % Hour) 1799999999999 with hn | hn
  · rw [spec_lo d h0 hn]
    by_cases hb : inRoundUpBand d = true
    · obtain ⟨c1, _, _⟩ := band_bounds d h0 h1 hb
      obtain ⟨_, b2⟩ := (inRoundUpBand_iff d).mp hb
      rw [if_pos hb]
      exact round_hi _ a0 _ (Hours_band_up d h0 h1 (by omega) hn b2) (Hours_le d h0 h1)
    · rw [if_neg hb, add_zero]
      have hb2 : ¬ 2 ^ 54 * (Hour - 2 * (d % Hour))
          ≤ Hour * (2 ^ (log2 (d / Hour).toNat + 2) + 1) := by
        intro h
        apply hb
        rw [inRoundUpBand_iff]
        refine ⟨?_, h⟩
        have hH : Hour = 3600000000000 := rfl
        omega
      rcases (show d / Hour = 0 ∨ 1 ≤ d / Hour by omega) with hz | hp
      · exact round_lo _ a0 _ (Hours_ge d h0 h1) (Hours_lt_half d h0 h1 hn (by omega))
      · exact round_lo _ a0 _ (Hours_ge d h0 h1) (Hours_band_down d h0 h1 hp hn hb2)
  · have hn' : 1800000000000 ≤ d % Hour := by omega
    have hb : ¬ inRoundUpBand d = true := by
      rw [inRoundUpBand_iff]
      intro h
      have := h.1
      have hH : Hour = 3600000000000 := rfl
      omega
    rw [spec_hi d h0 hn', if_neg hb, add_zero]
    exact round_hi _ a0 _ (Hours_ge_half d h0 h1 hn') (Hours_le d h0 h1)

/-- The hour count of a duration: the exactly rounded hours, and one further from zero
inside the band. -/
theorem count_exact (d : Int) (h0 : -(2 ^ 63) ≤ d) (h1 : d ≤ 2 ^ 63) :
    toInt64 (mathRound (Hours d))
      = specRoundedHours d + (if inRoundUpBand |d| = true then d.sign else 0) := by
  rcases le_or_lt 0 d with hd | hd
  · rw [abs_of_nonneg hd, count_exact_nonneg d hd h1]
    by_cases hb : inRoundUpBand d = true
    · have hpos : 0 < d := by
        obtain ⟨c1, _, _⟩ := band_bounds d hd h1 hb
        by_contra hz
        have : d = 0 := by omega
        rw [this] at c1
        exact absurd c1 (by decide)
      rw [if_pos hb, if_pos hb, Int.sign_eq_one_of_pos hpos]
    · rw [if_neg hb, if_neg hb]
  · have key := count_exact_nonneg (-d) (by omega) (by omega)
    rw [Hours_neg, round_neg, spec_neg] at key
    rw [abs_of_neg hd, Int.sign_eq_neg_one_of_neg hd]
    by_cases hb : inRoundUpBand (-d) = true
    · rw [if_pos hb] at key ⊢
      omega
    · rw [if_neg hb] at key ⊢
      omega

theorem getDuration_cons (m : Metadata) (rest : List Metadata) (now : Time) :
    getDuration false (m :: rest) now
      = formatHours (toInt64 (mathRound (Hours (since now m.StartedAt)))) := rfl

/-! ## The claims -/

/-- C1: with `copyAll` set or with an empty history, whatever the other argument and the
current time, `getDuration` returns `off`. -/
theorem getDuration_off (copyAll : Bool) (metadata : List Metadata) (now : Time)
    (h : copyAll = true ∨ metadata = []) : getDuration copyAll metadata now = "off" := by
  rcases h with h | h
  · subst h; rfl
  · subst h; cases copyAll <;> rfl

/-- A history of one record with `copyAll` set, and an empty history without it, both
give `off`. -/
theorem getDuration_off_witness :
    getDuration true [⟨⟨0⟩, ⟨7⟩, 3, "1 GiB".toList, 0⟩] ⟨9⟩ = "off" ∧
    getDuration false [] ⟨9⟩ = "off" :=
  ⟨getDuration_off true [⟨⟨0⟩, ⟨7⟩, 3, "1 GiB".toList, 0⟩] ⟨9⟩ (Or.inl rfl),
   getDuration_off false [] ⟨9⟩ (Or.inr rfl)⟩

/-- The claim C2 as written fails 4096 hours, 29 minutes and 59.999999999 seconds after
the start of the newest run: the exactly rounded number of hours is 4096, and
`getDuration` returns the window of 4097 hours. -/
theorem getDuration_hours_counterexample :
    getDuration false [⟨⟨0⟩, ⟨0⟩, 0, [], 0⟩] ⟨14747399999999999⟩ = "4097h" ∧
    formatHours (specRoundedHours (14747399999999999 - 0)) = "4096h" := by
  decide!

/-- C2, amended: for a non-empty history with `copyAll` unset, `getDuration` returns the
window `<N>h` in which `N` is `math.Round` of `Duration.Hours` of the duration that
`time.Since` reports for the first record; `N` is the exactly rounded number of hours of
that duration (halves away from zero), and one further from zero exactly when the
remainder past the whole hours is short of the half hour and inside the round-up band,
which starts at 4096 hours and lies within 838 ns below the half hour; so `N` is the
exactly rounded number of elapsed hours whenever the elapsed time is below 4096 hours in
magnitude; and the result depends on no record other than the first. -/
theorem getDuration_hours (m : Metadata) (rest : List Metadata) (now : Time) :
    getDuration false (m :: rest) now
      = formatHours (toInt64 (mathRound (Hours (since now m.StartedAt)))) ∧
    toInt64 (mathRound (Hours (since now m.StartedAt)))
      = specRoundedHours (since now m.StartedAt)
        + (if inRoundUpBand |since now m.StartedAt| = true
            then (since now m.StartedAt).sign else 0) ∧
    (inRoundUpBand |since now m.StartedAt| = true →
      4096 * Hour ≤ |since now m.StartedAt| ∧
      Hour - 1676 ≤ 2 * (|since now m.StartedAt| % Hour) ∧
      2 * (|since now m.StartedAt| % Hour) < Hour) ∧
    (|now.nanos - m.StartedAt.nanos| < 4096 * Hour →
      getDuration false (m :: rest) now
        = formatHours (specRoundedHours (now.nanos - m.StartedAt.nanos))) ∧
    (∀ rest' : List Metadata,
      getDuration false (m :: rest') now = getDuration false (m :: rest) now) := by
  obtain ⟨hlo, hhi⟩ := since_bounds now m.StartedAt
  refine ⟨getDuration_cons m rest now, count_exact _ hlo hhi, fun hb => ?_, fun h => ?_,
    fun _ => rfl⟩
  · have habs0 : 0 ≤ |since now m.StartedAt| := abs_nonneg _
    have habs1 : |since now m.StartedAt| ≤ 2 ^ 63 := abs_le.mpr ⟨hlo, hhi⟩
    obtain ⟨c1, c2, c3⟩ := band_bounds _ habs0 habs1 hb
    refine ⟨?_, c2, c3⟩
    have c1' : 4096 ≤ |since now m.StartedAt| / 3600000000000 := c1
    have hH : Hour = 3600000000000 := rfl
    omega
  · have hb := abs_lt.mp h
    have hs : since now m.StartedAt = now.nanos - m.StartedAt.nanos := by
      apply since_exact <;> (unfold Hour at hb; omega)
    rw [getDuration_cons, hs, count_eq_spec _ h]

/-- One hour and a half after the start of the newest run the window is `2h`; and 4096
hours, 29 minutes and 59.999999999 seconds after it the elapsed time is inside the band. -/
theorem getDuration_hours_witness :
    (getDuration false [⟨⟨1000⟩, ⟨2000⟩, 4, "1 GiB".toList, 0⟩, ⟨⟨5⟩, ⟨6⟩, 0, [], 0⟩]
      ⟨5400000001000⟩ = formatHours (specRoundedHours (5400000001000 - 1000)) ∧
    formatHours (specRoundedHours (5400000001000 - 1000)) = "2h") ∧
    (4096 * Hour ≤ |since ⟨14747399999999999⟩ ⟨0⟩| ∧
      Hour - 1676 ≤ 2 * (|since ⟨14747399999999999⟩ ⟨0⟩| % Hour) ∧
      2 * (|since ⟨14747399999999999⟩ ⟨0⟩| % Hour) < Hour) :=
  ⟨⟨(getDuration_hours ⟨⟨1000⟩, ⟨2000⟩, 4, "1 GiB".toList, 0⟩ [⟨⟨5⟩, ⟨6⟩, 0, [], 0⟩]
      ⟨5400000001000⟩).2.2.2.1 (by decide!), by decide!⟩,
   (getDuration_hours ⟨⟨0⟩, ⟨0⟩, 0, [], 0⟩ [] ⟨14747399999999999⟩).2.2.1 (by decide!)⟩

/-- The claim C3 as written fails for a newest record that starts one hour after the
current time: `getDuration` returns the window `-1h`. -/
theorem getDuration_sign_counterexample :
    getDuration false [⟨⟨3600000000000⟩, ⟨3600000000000⟩, 0, [], 0⟩] ⟨0⟩ = "-1h" := by
  decide!

/-- C3, amended: for a non-empty history with `copyAll` unset, the hour count of the
window is not negative when the newest record starts at or before the current time; it
is 0 when the record starts after the current time by less than half an hour; and it is
negative when the record starts after the current time by half an hour or more. -/
theorem getDuration_sign (m : Metadata) (rest : List Metadata) (now : Time) :
    (m.StartedAt.nanos ≤ now.nanos →
      ∃ n : Nat, getDuration false (m :: rest) now = formatHours (n : Int)) ∧
    (now.nanos < m.StartedAt.nanos → m.StartedAt.nanos - now.nanos < 1800000000000 →
      getDuration false (m :: rest) now = "0h") ∧
    (1800000000000 ≤ m.StartedAt.nanos - now.nanos →
      ∃ n : Nat, 0 < n ∧ getDuration false (m :: rest) now = "-" ++ toString n ++ "h") := by
  obtain ⟨hlo, hhi⟩ := since_bounds now m.StartedAt
  refine ⟨fun h => ?_, fun h1 h2 => ?_, fun h => ?_⟩
  · have hs : 0 ≤ since now m.StartedAt := by
      unfold since maxDuration minDuration
      simp only
      split_ifs <;> omega
    have hc := count_nonneg _ hs hhi
    refine ⟨(toInt64 (mathRound (Hours (since now m.StartedAt)))).toNat, ?_⟩
    rw [getDuration_cons, Int.toNat_of_nonneg hc]
  · have hs : since now m.StartedAt = now.nanos - m.StartedAt.nanos := by
      apply since_exact <;> omega
    have habs : |now.nanos - m.StartedAt.nanos| < 4096 * Hour := by
      rw [abs_lt]
      unfold Hour
      constructor <;> omega
    have hspec : specRoundedHours (-(now.nanos - m.StartedAt.nanos))
        = (-(now.nanos - m.StartedAt.nanos)) / Hour :=
      spec_lo _ (by omega) (by unfold Hour; omega)
    have hq : (-(now.nanos - m.StartedAt.nanos)) / Hour = 0 := by
      unfold Hour
      omega
    rw [spec_neg, hq] at hspec
    have hzero : specRoundedHours (now.nanos - m.StartedAt.nanos) = 0 := by omega
    rw [getDuration_cons, hs, count_eq_spec _ habs, hzero]
    rfl
  · have hs : since now m.StartedAt ≤ -1800000000000 := by
      unfold since maxDuration minDuration
      simp only
      split_ifs <;> omega
    have hc := count_pos (-(since now m.StartedAt)) (by omega) (by omega)
    rw [Hours_neg, round_neg] at hc
    refine ⟨(-toInt64 (mathRound (Hours (since now m.StartedAt)))).toNat, by omega, ?_⟩
    have e : toInt64 (mathRound (Hours (since now m.StartedAt)))
        = -((-toInt64 (mathRound (Hours (since now m.StartedAt)))).toNat : Int) := by
      rw [Int.toNat_of_nonneg (by omega)]
      omega
    rw [getDuration_cons]
    conv_lhs => rw [e]
    unfold formatHours
    rw [toString_neg_natCast _ (by omega)]

/-- A record that starts ten minutes after the current time gives the window `0h`, and
one that starts two hours after it gives a window with a negative hour count. -/
theorem getDuration_sign_witness :
    getDuration false [⟨⟨600000000000⟩, ⟨600000000000⟩, 0, [], 0⟩] ⟨0⟩ = "0h" ∧
    ∃ n : Nat, 0 < n ∧
      getDuration false [⟨⟨7200000000000⟩, ⟨7200000000000⟩, 0, [], 0⟩] ⟨0⟩
        = "-" ++ toString n ++ "h" :=
  ⟨(getDuration_sign ⟨⟨600000000000⟩, ⟨600000000000⟩, 0, [], 0⟩ [] ⟨0⟩).2.1
      (by decide) (by decide),
   (getDuration_sign ⟨⟨7200000000000⟩, ⟨7200000000000⟩, 0, [], 0⟩ [] ⟨0⟩).2.2 (by decide)⟩

/-- The claim C4 as written fails on the line `... 42 ... 100% ...`: the digit run `42`
is followed by the marker `100%`, and the file count is 0. -/
theorem ProcessStdoutLine_files_counterexample :
    "... 42 ... 100% ...".toList
      = "... ".toList ++ ("42".toList ++ (" ... ".toList ++ (hundredLabel ++ " ...".toList))) ∧
    digitsValue "42".toList = 42 ∧
    ProcessStdoutLine "... 42 ... 100% ...".toList = (0, [], 0) := by
  decide

/-- C4, amended: `ProcessStdoutLine` returns a non-zero files only on a line that has the
label `Transferred:`, whitespace, a digit run and, later, a comma, whitespace and `100%`,
and files is then the value of that digit run; and on a line without a newline in which the
first `Transferred:` that is followed by whitespace and a digit is followed so, files is
the value of the maximal digit run when that is in the range of `int`. -/
theorem ProcessStdoutLine_files_labelled (line : List Char) :
    ((ProcessStdoutLine line).1 ≠ 0 →
      ∃ pre ws d after ws2 post,
        line = pre ++ (transferredLabel ++
          (ws ++ (d ++ (after ++ (',' :: (ws2 ++ (hundredLabel ++ post))))))) ∧
        ws ≠ [] ∧ (∀ x ∈ ws, isSpace x = true) ∧ d ≠ [] ∧ (∀ x ∈ d, isDigit x = true) ∧
        (∀ x ∈ after, x ≠ '\n') ∧ ws2 ≠ [] ∧ (∀ x ∈ ws2, isSpace x = true) ∧
        (ProcessStdoutLine line).1 = (digitsValue d : Int)) ∧
    (∀ pre ws d after ws2 post : List Char,
      line = pre ++ (transferredLabel ++
        (ws ++ (d ++ (after ++ (',' :: (ws2 ++ (hundredLabel ++ post))))))) →
      occursEarlier (labelledNumber transferredLabel) pre
        (transferredLabel ++ (ws ++ (d ++ (after ++ (',' :: (ws2 ++ (hundredLabel ++ post)))))))
        = false →
      ws ≠ [] → (∀ x ∈ ws, isSpace x = true) → d ≠ [] → (∀ x ∈ d, isDigit x = true) →
      (digitsValue d : Int) ≤ maxInt → (∀ x t, after = x :: t → isDigit x = false) →
      (∀ x ∈ after, x ≠ '\n') → ws2 ≠ [] → (∀ x ∈ ws2, isSpace x = true) →
      (ProcessStdoutLine line).1 = (digitsValue d : Int)) := by
  refine ⟨fun h => extractFiles_ne_zero line h, ?_⟩
  intro pre ws d after ws2 post hline hfirst hws hws' hd hd' hfit hmax hafter hws2 hws2'
  subst hline
  exact extractFiles_of_shape (labelledNumber transferredLabel)
    (fun t r h => labelledNumber_of_run transferredLabel _ t r h)
    pre ws d after ws2 post hfirst hws hws' hd hd' hfit hmax
    (fun c hc => by simpa [isDot] using hafter c hc) hws2 hws2'

/-- The line `Transferred: x Transferred:   42 / 42, 100%` has files 42: the first label
is not followed by a digit. -/
theorem ProcessStdoutLine_files_labelled_witness :
    (ProcessStdoutLine "Transferred: x Transferred:   42 / 42, 100%".toList).1 = 42 :=
  (ProcessStdoutLine_files_labelled "Transferred: x Transferred:   42 / 42, 100%".toList).2
    "Transferred: x ".toList "   ".toList "42".toList " / 42".toList " ".toList []
    (by decide) (by decide) (by decide) (by decide) (by decide) (by decide) (by decide)
    (by intro c t e; cases e; rfl) (by decide) (by decide) (by decide)

/-- The claim C5 as written fails on the line `Transferred: 1 GiB / 2 GiB / 3 GiB, ETA 1s`:
the text `1 GiB` is followed by ` / ` and later by `ETA`, and the size is `1 GiB / 2 GiB`. -/
theorem ProcessStdoutLine_size_counterexample :
    "Transferred: 1 GiB / 2 GiB / 3 GiB, ETA 1s".toList
      = transferredLabel ++ (" ".toList ++ ("1 GiB".toList ++ (" / ".toList ++
          ("2 GiB / 3 GiB, ".toList ++ (etaLabel ++ " 1s".toList))))) ∧
    (ProcessStdoutLine "Transferred: 1 GiB / 2 GiB / 3 GiB, ETA 1s".toList).2.1
      = "1 GiB / 2 GiB".toList ∧
    (ProcessStdoutLine "Transferred: 1 GiB / 2 GiB / 3 GiB, ETA 1s".toList).2.1
      ≠ "1 GiB".toList := by
  decide

/-- C5, amended: on a line without a newline in which the first `Transferred:` and
whitespace are followed by a text `q` that begins with a digit, then by ` / `, then later
by `ETA`, and in which no whitespace-delimited slash follows that ` / `,
`ProcessStdoutLine` returns size equal to `q` verbatim. -/
theorem ProcessStdoutLine_size (pre ws q mid post : List Char)
    (hfirst : occursEarlier (startsWith transferredLabel) pre
      (transferredLabel ++ (ws ++ (q ++ (' ' :: '/' :: ' ' :: (mid ++ (etaLabel ++ post))))))
      = false)
    (hws : ws ≠ []) (hws' : ∀ c ∈ ws, isSpace c = true)
    (hq : q.head?.map isDigit = some true) (hqline : ∀ c ∈ q, c ≠ '\n')
    (hmid : ∀ c ∈ mid, c ≠ '\n')
    (hlast : hasSlashSeparator (' ' :: (mid ++ (etaLabel ++ post))) = false) :
    (ProcessStdoutLine (pre ++ (transferredLabel ++
      (ws ++ (q ++ (' ' :: '/' :: ' ' :: (mid ++ (etaLabel ++ post)))))))).2.1 = q := by
  obtain ⟨e, he⟩ := run_sizeDownloadedRE ws q mid post hws hws' hq
    (fun c hc => by simpa [isDot] using hqline c hc)
    (fun c hc => by simpa [isDot] using hmid c hc) hlast
  show extractSize _ = q
  unfold extractSize
  rw [findSubmatch_of_run sizeDownloadedRE (startsWith transferredLabel)
    (fun t r h => by rw [sizeDownloadedRE_eq] at h; exact startsWith_of_run _ _ t r h)
    pre _ _ _ e hfirst he, between_append]

/-- The line `Transferred: 12.3 GiB / 50 GiB, 24%, 1.5 MiB/s, ETA 7h` has size `12.3 GiB`,
and the line `Transferred: 1 GiB / 2 GiB / 3 GiB, ETA 1s` has size `1 GiB / 2 GiB`. -/
theorem ProcessStdoutLine_size_witness :
    (ProcessStdoutLine "Transferred: 12.3 GiB / 50 GiB, 24%, 1.5 MiB/s, ETA 7h".toList).2.1
      = "12.3 GiB".toList ∧
    (ProcessStdoutLine "x Transferred: \t1 GiB / 2 GiB / 3 GiB, ETA 1s".toList).2.1
      = "1 GiB / 2 GiB".toList :=
  ⟨ProcessStdoutLine_size [] " ".toList "12.3 GiB".toList "50 GiB, 24%, 1.5 MiB/s, ".toList
      " 7h".toList (by decide) (by decide) (by decide) (by decide) (by decide) (by decide)
      (by decide),
   ProcessStdoutLine_size "x ".toList " \t".toList "1 GiB / 2 GiB".toList "3 GiB, ".toList
      " 1s".toList (by decide) (by decide) (by decide) (by decide) (by decide) (by decide)
      (by decide)⟩

/-- C6: on a line in which the first occurrence of the label `Errors:` followed by
whitespace and a digit has the maximal digit run `d`, `ProcessStdoutLine` returns as
errors the value of `d` when it is in the range of `int` and 0 when it is not; the files
and size results are those of the file pattern and the size pattern alone. -/
theorem ProcessStdoutLine_errors (pre ws d rest : List Char)
    (hfirst : occursEarlier (labelledNumber errorsLabel) pre
      (errorsLabel ++ (ws ++ (d ++ rest))) = false)
    (hws : ws ≠ []) (hws' : ∀ c ∈ ws, isSpace c = true) (hd : d ≠ [])
    (hd' : ∀ c ∈ d, isDigit c = true) (hmax : ∀ c t, rest = c :: t → isDigit c = false) :
    ((digitsValue d : Int) ≤ maxInt →
      (ProcessStdoutLine (pre ++ (errorsLabel ++ (ws ++ (d ++ rest))))).2.2 = (digitsValue d : Int)) ∧
    (maxInt < (digitsValue d : Int) →
      (ProcessStdoutLine (pre ++ (errorsLabel ++ (ws ++ (d ++ rest))))).2.2 = 0) ∧
    (ProcessStdoutLine (pre ++ (errorsLabel ++ (ws ++ (d ++ rest))))).1
      = extractFiles (pre ++ (errorsLabel ++ (ws ++ (d ++ rest)))) ∧
    (ProcessStdoutLine (pre ++ (errorsLabel ++ (ws ++ (d ++ rest))))).2.1
      = extractSize (pre ++ (errorsLabel ++ (ws ++ (d ++ rest)))) := by
  have hrun := run_numErrorsRE ws d rest hws hws' hd hd' hmax
  have hfind := findSubmatch_of_run numErrorsRE (labelledNumber errorsLabel)
    (fun t r h => labelledNumber_of_run errorsLabel [Node.capClose] t r h)
    pre _ _ _ _ hfirst hrun
  have herr : extractErrors (pre ++ (errorsLabel ++ (ws ++ (d ++ rest))))
      = if (digitsValue d : Int) ≤ maxInt then (digitsValue d : Int) else 0 := by
    unfold extractErrors
    rw [hfind, between_append]
    dsimp only
    rw [atoi_digits d hd hd']
    by_cases hfit : (digitsValue d : Int) ≤ maxInt
    · rw [if_pos hfit, if_pos hfit]
    · rw [if_neg hfit, if_neg hfit]
  refine ⟨fun h => ?_, fun h => ?_, rfl, rfl⟩
  · show extractErrors _ = _
    rw [herr, if_pos h]
  · show extractErrors _ = _
    rw [herr, if_neg (not_le.mpr h)]

/-- The line `2024/05/01 Errors:  3 (retrying may help)` has 3 errors, and the line
`Errors: 9223372036854775808`, whose count is out of range, has none. -/
theorem ProcessStdoutLine_errors_witness :
    (ProcessStdoutLine "2024/05/01 Errors:  3 (retrying may help)".toList).2.2 = 3 ∧
    (ProcessStdoutLine "Errors: 9223372036854775808".toList).2.2 = 0 :=
  ⟨(ProcessStdoutLine_errors "2024/05/01 ".toList "  ".toList "3".toList
      " (retrying may help)".toList (by decide) (by decide) (by decide) (by decide) (by decide)
      (by intro c t e; cases e; rfl)).1 (by decide),
   (ProcessStdoutLine_errors [] " ".toList "9223372036854775808".toList []
      (by decide) (by decide) (by decide) (by decide) (by decide)
      (by intro c t e; cases e)).2.1 (by decide)⟩

/-- C7: after the scanner loop each accumulator holds the value `ProcessStdoutLine`
extracted from the last line whose value for that field is not zero (not empty for the
size), or the initial value when there is no such line; so an error count that a line
sets stays while the later lines extract no error count, and replaces what earlier lines
had set. -/
theorem scanLoop_last_nonzero (lines : List (List Char)) :
    (scanLoop lines).numFilesDownloaded
      = lastWhere (fun v => decide (v ≠ 0)) 0 (lines.map (fun l => (ProcessStdoutLine l).1)) ∧
    (scanLoop lines).sizeDownloaded
      = lastWhere (fun v => decide (v ≠ [])) []
          (lines.map (fun l => (ProcessStdoutLine l).2.1)) ∧
    (scanLoop lines).numErrors
      = lastWhere (fun v => decide (v ≠ 0)) 0
          (lines.map (fun l => (ProcessStdoutLine l).2.2)) ∧
    (∀ (before after : List (List Char)) (l : List Char), lines = before ++ l :: after →
      (ProcessStdoutLine l).2.2 ≠ 0 → (∀ x ∈ after, (ProcessStdoutLine x).2.2 = 0) →
      (scanLoop lines).numErrors = (ProcessStdoutLine l).2.2) := by
  have main : ∀ ls : List (List Char),
      (scanLoop ls).numFilesDownloaded
        = lastWhere (fun v => decide (v ≠ 0)) 0 (ls.map (fun l => (ProcessStdoutLine l).1)) ∧
      (scanLoop ls).sizeDownloaded
        = lastWhere (fun v => decide (v ≠ [])) []
            (ls.map (fun l => (ProcessStdoutLine l).2.1)) ∧
      (scanLoop ls).numErrors
        = lastWhere (fun v => decide (v ≠ 0)) 0
            (ls.map (fun l => (ProcessStdoutLine l).2.2)) := by
    intro ls
    induction ls using List.reverseRecOn with
    | nil => exact ⟨rfl, rfl, rfl⟩
    | append_singleton ls l ih =>
      obtain ⟨ih1, ih2, ih3⟩ := ih
      rw [scanLoop_append, List.map_append, List.map_append, List.map_append]
      simp only [List.map_cons, List.map_nil]
      rw [lastWhere_append, lastWhere_append, lastWhere_append, scanStep_files,
        scanStep_size, scanStep_errors, ih1, ih2, ih3]
      refine ⟨?_, ?_, ?_⟩
      · show (if extractFiles l > 0 then extractFiles l else _)
          = if decide (extractFiles l ≠ 0) = true then extractFiles l else _
        have := pos_iff_ne_zero_of_nonneg _ (extractFiles_nonneg l)
        by_cases h : extractFiles l > 0
        · rw [if_pos h, if_pos (by simpa using this.mp h)]
        · rw [if_neg h, if_neg (by simpa using fun h' => h (this.mpr h'))]
      · show (if extractSize l ≠ [] then extractSize l else _)
          = if decide (extractSize l ≠ []) = true then extractSize l else _
        by_cases h : extractSize l ≠ []
        · rw [if_pos h, if_pos (by simpa using h)]
        · rw [if_neg h, if_neg (by simpa using h)]
      · show (if extractErrors l > 0 then extractErrors l else _)
          = if decide (extractErrors l ≠ 0) = true then extractErrors l else _
        have := pos_iff_ne_zero_of_nonneg _ (extractErrors_nonneg l)
        by_cases h : extractErrors l > 0
        · rw [if_pos h, if_pos (by simpa using this.mp h)]
        · rw [if_neg h, if_neg (by simpa using fun h' => h (this.mpr h'))]
  refine ⟨(main lines).1, (main lines).2.1, (main lines).2.2, ?_⟩
  intro before after l hl hne hafter
  subst hl
  induction after using List.reverseRecOn with
  | nil =>
    rw [scanLoop_append, scanStep_errors]
    have hpos : extractErrors l > 0 :=
      (pos_iff_ne_zero_of_nonneg _ (extractErrors_nonneg l)).mpr hne
    rw [if_pos hpos]; rfl
  | append_singleton after x ih =>
    have hx : extractErrors x = 0 := hafter x (by simp)
    have e : before ++ l :: (after ++ [x]) = (before ++ l :: after) ++ [x] := by simp
    rw [e, scanLoop_append, scanStep_errors, hx, if_neg (by decide)]
    exact ih (fun y hy => hafter y (by simp [hy]))

/-- A run in which a line sets 2 errors, a later line sets 5 and the last line sets
none ends with 5 errors. -/
theorem scanLoop_last_nonzero_witness :
    (scanLoop ["Errors: 2".toList, "Errors: 5".toList, "Transferred: 0 / 1, 0%".toList]).numErrors
      = 5 :=
  (scanLoop_last_nonzero
      ["Errors: 2".toList, "Errors: 5".toList, "Transferred: 0 / 1, 0%".toList]).2.2.2
    ["Errors: 2".toList] ["Transferred: 0 / 1, 0%".toList] "Errors: 5".toList rfl
    (by decide) (by decide)

/-- The claim C8 as written fails on the run with the lines `Errors: 5` and `Errors: 0`:
the last line on which the error pattern matched reports 0, and the record has 5. -/
theorem buildMetadata_last_value_counterexample :
    reportedErrors "Errors: 5".toList = some 5 ∧
    reportedErrors "Errors: 0".toList = some 0 ∧
    (buildMetadata ⟨0⟩ ⟨1⟩ ["Errors: 5".toList, "Errors: 0".toList]).NumErrors = 5 := by
  decide

/-- C8, amended: the record of a run holds, as file count and as error count, the value
reported by the last line on which that field's pattern matched with a value that is not
zero (0 when there is no such line), and as size the text captured on the last line on
which the size pattern matched (empty when there is none). -/
theorem buildMetadata_last_reported (startedAt endedAt : Time) (lines : List (List Char)) :
    (buildMetadata startedAt endedAt lines).NumFilesDownloaded
      = lastWhere (fun v => decide (v ≠ 0)) 0 (lines.filterMap reportedFiles) ∧
    (buildMetadata startedAt endedAt lines).SizeDownloaded
      = ((lines.filterMap reportedSize).getLast?).getD [] ∧
    (buildMetadata startedAt endedAt lines).NumErrors
      = lastWhere (fun v => decide (v ≠ 0)) 0 (lines.filterMap reportedErrors) := by
  show (scanLoop lines).numFilesDownloaded = _ ∧ (scanLoop lines).sizeDownloaded = _ ∧
    (scanLoop lines).numErrors = _
  induction lines using List.reverseRecOn with
  | nil => exact ⟨rfl, rfl, rfl⟩
  | append_singleton ls l ih =>
    obtain ⟨ih1, ih2, ih3⟩ := ih
    rw [scanLoop_append, scanStep_files, scanStep_size, scanStep_errors, ih1, ih2, ih3,
      List.filterMap_append, List.filterMap_append, List.filterMap_append,
      extractFiles_eq_reported, extractSize_eq_reported, extractErrors_eq_reported]
    refine ⟨?_, ?_, ?_⟩
    · cases h : reportedFiles l with
      | none => simp [List.filterMap_cons, h]
      | some v =>
        have hv := pos_iff_ne_zero_of_nonneg v (reportedFiles_nonneg l v h)
        simp only [List.filterMap_cons, h, List.filterMap_nil, Option.getD_some]
        rw [lastWhere_append]
        by_cases hp : v > 0
        · rw [if_pos hp, if_pos (by simpa using hv.mp hp)]
        · rw [if_neg hp, if_neg (by simpa using fun h' => hp (hv.mpr h'))]
    · cases h : reportedSize l with
      | none => simp [List.filterMap_cons, h]
      | some g =>
        have hg := reportedSize_ne_nil l g h
        simp [List.filterMap_cons, h, hg]
    · cases h : reportedErrors l with
      | none => simp [List.filterMap_cons, h]
      | some v =>
        have hv := pos_iff_ne_zero_of_nonneg v (reportedErrors_nonneg l v h)
        simp only [List.filterMap_cons, h, List.filterMap_nil, Option.getD_some]
        rw [lastWhere_append]
        by_cases hp : v > 0
        · rw [if_pos hp, if_pos (by simpa using hv.mp hp)]
        · rw [if_neg hp, if_neg (by simpa using fun h' => hp (hv.mpr h'))]

/-- C9: the updated history is the new record followed by the loaded history: the new
record is first, the rest is the loaded history unchanged, and the length grows by one. -/
theorem updatedMetadata_prepend (r : Metadata) (h : List Metadata) :
    updatedMetadata r h = r :: h ∧
    (updatedMetadata r h).head? = some r ∧
    (updatedMetadata r h).tail = h ∧
    (updatedMetadata r h).length = h.length + 1 ∧
    (∀ i : Nat, (updatedMetadata r h)[i + 1]? = h[i]?) :=
  ⟨rfl, rfl, rfl, by simp [updatedMetadata], fun i => by simp [updatedMetadata]⟩

/-- C10: on a line in which the first `Transferred:` is followed by whitespace and the
maximal digit run `d`, in the range of `int`, and later on the line by a comma,
whitespace and `100%`, `ProcessStdoutLine` returns as files the value of `d`, whatever
text follows `d`. -/
theorem ProcessStdoutLine_files_of_first_label (pre ws d after ws2 post : List Char)
    (hfirst : occursEarlier (startsWith transferredLabel) pre
      (transferredLabel ++ (ws ++ (d ++ (after ++ (',' :: (ws2 ++ (hundredLabel ++ post)))))))
      = false)
    (hws : ws ≠ []) (hws' : ∀ c ∈ ws, isSpace c = true) (hd : d ≠ [])
    (hd' : ∀ c ∈ d, isDigit c = true) (hfit : (digitsValue d : Int) ≤ maxInt)
    (hmax : ∀ c t, after = c :: t → isDigit c = false)
    (hafter : ∀ c ∈ after, c ≠ '\n') (hws2 : ws2 ≠ [])
    (hws2' : ∀ c ∈ ws2, isSpace c = true) :
    (ProcessStdoutLine (pre ++ (transferredLabel ++
      (ws ++ (d ++ (after ++ (',' :: (ws2 ++ (hundredLabel ++ post))))))))).1
      = (digitsValue d : Int) :=
  extractFiles_of_shape (startsWith transferredLabel)
    (fun t r h => startsWith_of_run transferredLabel _ t r h)
    pre ws d after ws2 post hfirst hws hws' hd hd' hfit hmax
    (fun c hc => by simpa [isDot] using hafter c hc) hws2 hws2'

/-- The size-progress line `Transferred: 12.3 GiB / 12.3 GiB, 100%, 1.5 MiB/s, ETA 0s`
has files 12, the integer part of the size, with size `12.3 GiB` and no errors. -/
theorem ProcessStdoutLine_files_of_first_label_witness :
    (ProcessStdoutLine
      "Transferred: 12.3 GiB / 12.3 GiB, 100%, 1.5 MiB/s, ETA 0s".toList).1 = 12 ∧
    ProcessStdoutLine "Transferred: 12.3 GiB / 12.3 GiB, 100%, 1.5 MiB/s, ETA 0s".toList
      = (12, "12.3 GiB".toList, 0) :=
  ⟨ProcessStdoutLine_files_of_first_label [] " ".toList "12".toList
      ".3 GiB / 12.3 GiB".toList " ".toList ", 1.5 MiB/s, ETA 0s".toList
      (by decide) (by decide) (by decide) (by decide) (by decide) (by decide)
      (by intro c t e; cases e; rfl) (by decide) (by decide) (by decide),
   by decide⟩

end Backup
